import Mathlib

/-!
# Verification of the cepharum `ipp` message codec

A shallow embedding, in Lean 4, of the IPP (RFC 2910) message codec from the
`cepharum/ipp` repository: the binary decoder (`src/lib/message.js`,
`src/lib/decode.js`), the typed value model (`src/lib/type.js`), the binary
encoder (`IPPMessage.prototype.toBuffer` and helpers), the generator helpers
(`src/lib/generate.js`) and the streaming header scanner
(`src/lib/stream-parser.js`).

Buffers are modelled as `List Nat` with entries in `0..255`.  Node `Buffer`
reads and writes are modelled explicitly, including their signedness, range
checks (writes throw on out-of-range input) and the clamping behaviour of
`Buffer.slice` / `Buffer.toString`.  Fallible javascript code (anything that
can `throw`) is modelled with `Except String`.  Loops whose progress depends
on attacker-controlled length fields are given explicit fuel; fuel exhaustion
is reported as an error and is proved unreachable on the inputs the theorems
touch.
-/

/-- Raw byte strings: each entry is one octet in `0..255`. -/
abbrev Bytes := List Nat

namespace JSBuf

/-- The byte at index `pos`; Node throws on out-of-range access, but every
read in the embedded code is range-guarded, so the default `0` is never
observable. -/
def byteAt (data : Bytes) (pos : Nat) : Nat :=
  (data.drop pos).headD 0

/-- `buffer.readUInt8(pos)`. -/
def readUInt8 (data : Bytes) (pos : Nat) : Nat := byteAt data pos

/-- `buffer.readInt8(pos)`: the byte re-interpreted as a signed 8-bit value. -/
def readInt8 (data : Bytes) (pos : Nat) : Int :=
  if 128 ≤ byteAt data pos then (byteAt data pos : Int) - 256 else (byteAt data pos : Int)

/-- `buffer.readUInt16BE(pos)`. -/
def readUInt16BE (data : Bytes) (pos : Nat) : Nat :=
  256 * byteAt data pos + byteAt data (pos + 1)

/-- `buffer.readInt16BE(pos)`: big-endian signed 16-bit read. -/
def readInt16BE (data : Bytes) (pos : Nat) : Int :=
  if 32768 ≤ readUInt16BE data pos then (readUInt16BE data pos : Int) - 65536
  else (readUInt16BE data pos : Int)

/-- `buffer.readUInt32BE(pos)`. -/
def readUInt32BE (data : Bytes) (pos : Nat) : Nat :=
  16777216 * byteAt data pos + 65536 * byteAt data (pos + 1)
    + 256 * byteAt data (pos + 2) + byteAt data (pos + 3)

/-- `buffer.readInt32BE(pos)`: big-endian signed 32-bit read. -/
def readInt32BE (data : Bytes) (pos : Nat) : Int :=
  if 2147483648 ≤ readUInt32BE data pos then (readUInt32BE data pos : Int) - 4294967296
  else (readUInt32BE data pos : Int)

/-- The two big-endian bytes of a signed 16-bit value (two's complement). -/
def int16BE (v : Int) : Bytes :=
  [(v % 65536).toNat / 256 % 256, (v % 65536).toNat % 256]

/-- The four big-endian bytes of a signed 32-bit value (two's complement). -/
def int32BE (v : Int) : Bytes :=
  [(v % 4294967296).toNat / 16777216 % 256, (v % 4294967296).toNat / 65536 % 256,
   (v % 4294967296).toNat / 256 % 256, (v % 4294967296).toNat % 256]

/-- `buffer.writeInt8(v)`: Node throws a `RangeError` outside `-128..127`. -/
def wInt8 (v : Int) : Except String Bytes :=
  if -128 ≤ v ∧ v ≤ 127 then .ok [(v % 256).toNat] else .error "writeInt8 value out of range"

/-- `buffer.writeInt16BE(v)`: Node throws a `RangeError` outside `-32768..32767`. -/
def wInt16BE (v : Int) : Except String Bytes :=
  if -32768 ≤ v ∧ v ≤ 32767 then .ok (int16BE v) else .error "writeInt16BE value out of range"

/-- `buffer.writeInt32BE(v)`: Node throws a `RangeError` outside the signed
32-bit range. -/
def wInt32BE (v : Int) : Except String Bytes :=
  if -2147483648 ≤ v ∧ v ≤ 2147483647 then .ok (int32BE v)
  else .error "writeInt32BE value out of range"

/-- `buffer.slice(start, stop)` with Node's clamping: a negative `stop`
counts from the end of the buffer, and an empty slice results whenever the
normalised end does not exceed `start`. -/
def jsSlice (data : Bytes) (start : Nat) (stop : Int) : Bytes :=
  let len := data.length
  let e : Nat := if stop < 0 then ((len : Int) + stop).toNat else min stop.toNat len
  if e ≤ start then [] else (data.drop start).take (e - start)

/-- `buffer.slice(start)`: the tail of the buffer. -/
def jsSliceFrom (data : Bytes) (start : Nat) : Bytes := data.drop start

/-- `buffer.toString("ascii", start, stop)`: Node's `ascii` decoding unsets
the high bit of each byte. -/
def toStringAscii (data : Bytes) (start stop : Nat) : String :=
  String.mk (((data.drop start).take (stop - start)).map (fun b => Char.ofNat (b % 128)))

/-- `buffer.write(s, …, "ascii")` / latin1 encoding of a javascript string:
each UTF-16 code unit is truncated to one byte.  All strings the theorems
touch are 7-bit ASCII, where this is the identity on code points. -/
def asciiEncode (s : String) : Bytes :=
  s.data.map (fun c => c.toNat % 256)

/-- One character of UTF-8 encoding (`Buffer.from(s, "utf8")`). -/
def utf8EncodeChar (c : Char) : Bytes :=
  let n := c.toNat
  if n < 128 then [n]
  else if n < 2048 then [192 + n / 64, 128 + n % 64]
  else if n < 65536 then [224 + n / 4096, 128 + n / 64 % 64, 128 + n % 64]
  else [240 + n / 262144, 128 + n / 4096 % 64, 128 + n / 64 % 64, 128 + n % 64]

/-- `Buffer.from(s, "utf8")`. -/
def utf8Encode (s : String) : Bytes :=
  (s.data.map utf8EncodeChar).flatten

/-- Fuelled UTF-8 decoding: well-formed sequences decode to their code point,
malformed bytes to U+FFFD (Node's replacement behaviour; only the ASCII
fragment, where decoding is the identity, is relied on by any theorem). -/
def utf8DecodeLoop : Nat → List Nat → List Char
  | 0, _ => []
  | _, [] => []
  | fuel + 1, b :: rest =>
    if b < 128 then Char.ofNat b :: utf8DecodeLoop fuel rest
    else if 194 ≤ b ∧ b ≤ 223 then
      match rest with
      | c :: rest2 =>
        if 128 ≤ c ∧ c ≤ 191 then
          Char.ofNat ((b - 192) * 64 + (c - 128)) :: utf8DecodeLoop fuel rest2
        else Char.ofNat 65533 :: utf8DecodeLoop fuel rest
      | [] => [Char.ofNat 65533]
    else if 224 ≤ b ∧ b ≤ 239 then
      match rest with
      | c :: d :: rest2 =>
        if 128 ≤ c ∧ c ≤ 191 ∧ 128 ≤ d ∧ d ≤ 191 then
          Char.ofNat ((b - 224) * 4096 + (c - 128) * 64 + (d - 128)) :: utf8DecodeLoop fuel rest2
        else Char.ofNat 65533 :: utf8DecodeLoop fuel rest
      | _ => [Char.ofNat 65533]
    else if 240 ≤ b ∧ b ≤ 244 then
      match rest with
      | c :: d :: e :: rest2 =>
        if 128 ≤ c ∧ c ≤ 191 ∧ 128 ≤ d ∧ d ≤ 191 ∧ 128 ≤ e ∧ e ≤ 191 then
          Char.ofNat ((b - 240) * 262144 + (c - 128) * 4096 + (d - 128) * 64 + (e - 128))
            :: utf8DecodeLoop fuel rest2
        else Char.ofNat 65533 :: utf8DecodeLoop fuel rest
      | _ => [Char.ofNat 65533]
    else Char.ofNat 65533 :: utf8DecodeLoop fuel rest

/-- `buffer.toString("utf8")` on a byte list. -/
def utf8Decode (bs : Bytes) : String :=
  String.mk (utf8DecodeLoop (bs.length + 1) bs)

/-- `buffer.toString("utf8", start, stop)` with clamping. -/
def toStringUtf8 (data : Bytes) (start : Nat) (stop : Int) : String :=
  if stop ≤ (start : Int) then ""
  else utf8Decode ((data.drop start).take (stop.toNat - start))

end JSBuf

/-- Javascript `"…".split(".")` on a string: the segments between the dots
(structurally recursive, unlike `String.splitOn`, so that concrete runs
reduce inside the kernel). -/
def jsSplitDotAux : List Char → List Char → List String
  | [], acc => [String.mk acc.reverse]
  | c :: rest, acc =>
    if c = '.' then String.mk acc.reverse :: jsSplitDotAux rest []
    else jsSplitDotAux rest (c :: acc)

/-- `String(this.version).split(".")`. -/
def jsSplitDot (s : String) : List String := jsSplitDotAux s.data []

/-- Javascript `parseInt` restricted to the decimal strings this code base
produces: an optional sign followed by leading decimal digits; `none` models
`NaN`.  (The hexadecimal `0x…` form of `parseInt` never arises from the
version strings handled here.) -/
def jsParseInt (s : String) : Option Int :=
  let core (l : List Char) : Option Nat :=
    let digits := l.takeWhile (fun c => c.isDigit)
    if digits = [] then none
    else some (digits.foldl (fun acc c => acc * 10 + (c.toNat - 48)) 0)
  match s.data with
  | '-' :: rest => (core rest).map (fun n => -(n : Int))
  | '+' :: rest => (core rest).map (fun n => (n : Int))
  | l => (core l).map (fun n => (n : Int))

/-- `MIN` from `src/lib/data.js`. -/
def MinInteger : Int := -2147483648

/-- `MAX` from `src/lib/data.js`. -/
def MaxInteger : Int := 2147483647

/-- The `ATTRIBUTE_GROUP` table of `src/lib/data.js`: `some (some name)` for
the four real groups, `some none` for the `0x03` end-of-groups sentinel
(`null` in the source) and `none` for every other tag (`undefined`). -/
def attributeGroup (tag : Int) : Option (Option String) :=
  if tag = 1 then some (some "operation")
  else if tag = 2 then some (some "job")
  else if tag = 3 then some none
  else if tag = 4 then some (some "printer")
  else if tag = 5 then some (some "unsupported")
  else none

/-! ## The typed value model (`src/lib/type.js`) -/

/-- The eleven raw fields of an RFC 2579 DateAndTime value as read by the
`0x31` decoder, before the source turns them into a host `Date`.  The `Date`
arithmetic of the source depends on the host timezone, so the embedded model
keeps the parsed fields; no claim depends on `Date` semantics. -/
structure DateRaw where
  year : Nat
  month : Nat
  day : Nat
  hour : Nat
  minute : Nat
  second : Nat
  deci : Nat
  utcMinutes : Int
deriving DecidableEq, Repr

/-- The javascript values a `TypeNative` wraps: `Buffer`, string, boolean,
number (integral in this code base) or `Date`. -/
inductive JSNative where
  | buf (b : Bytes)
  | str (s : String)
  | bool (b : Bool)
  | int (n : Int)
  | date (d : DateRaw)
deriving DecidableEq, Repr

/-- The `Type` class hierarchy of `src/lib/type.js` as a tagged variant:
`TypeNative`, the three out-of-band classes, `TypeResolution`, `TypeRange`
and `TypeStringWithLanguage`. -/
inductive Value where
  | typeNative (type : Int) (value : JSNative)
  | typeDefault
  | typeUnknown
  | typeNoValue
  | typeResolution (x y unit : Int)
  | typeRange (lower upper : Int)
  | typeStringWithLanguage (type : Int) (string language : String)
deriving DecidableEq, Repr

namespace Value

/-- The `this.type` field each constructor stores. -/
def type : Value → Int
  | typeNative t _ => t
  | typeDefault => 0x11
  | typeUnknown => 0x12
  | typeNoValue => 0x13
  | typeResolution _ _ _ => 0x32
  | typeRange _ _ => 0x33
  | typeStringWithLanguage t _ _ => t

/-- The `TypeResolution` constructor: rejects units other than
`PER_INCH = 3` and `PER_CM = 4`. -/
def mkResolution (x y unit : Int) : Except String Value :=
  if unit ≠ 3 ∧ unit ≠ 4 then .error "unsupported resolution unit"
  else .ok (typeResolution x y unit)

/-- The `TypeRange` constructor: stores `Math.min`/`Math.max` of its two
arguments as `lower`/`upper`. -/
def mkRange (lower upper : Int) : Value :=
  typeRange (min lower upper) (max lower upper)

/-- The `TypeStringWithLanguage` constructor: only the `textWithLanguage`
and `nameWithLanguage` type tags are accepted. -/
def mkStringWithLanguage (t : Int) (string language : String) : Except String Value :=
  if t ≠ 0x36 ∧ t ≠ 0x35 then .error "invalid/unknown type of *WithLanguage"
  else .ok (typeStringWithLanguage t string language)

/-- `toBuffer()` of each value class: the length-prefixed payload written
into the attribute record.

* `TypeNative` with a `Buffer` returns the raw buffer — without any length
  prefix (the source returns `this.value` directly).
* `TypeNative` with a `Date` serializes through the host timezone
  (`getTimezoneOffset` etc.); that is environment-dependent and is modelled
  as an error — no claim touches it.
* `TypeRange` writes a length prefix of 9 followed by 8 payload octets
  (the source writes `data.writeInt16BE( 9, 0 )`).
* `TypeStringWithLanguage` reads `this.value`, a field its constructor never
  sets, so `Buffer.from(undefined, "utf8")` throws a `TypeError`. -/
def toBuffer : Value → Except String Bytes
  | typeNative _ (.buf b) => .ok b
  | typeNative _ (.date _) => .error "Date serialization depends on the host timezone"
  | typeNative _ (.str s) => do
    let data := JSBuf.utf8Encode s
    let length ← JSBuf.wInt16BE data.length
    .ok (length ++ data)
  | typeNative _ (.bool b) => .ok [0, 1, if b then 1 else 0]
  | typeNative _ (.int n) => do
    let v ← JSBuf.wInt32BE n
    .ok ([0, 4] ++ v)
  | typeDefault => .ok [0, 0]
  | typeUnknown => .ok [0, 0]
  | typeNoValue => .ok [0, 0]
  | typeResolution x y unit => do
    let xb ← JSBuf.wInt32BE x
    let yb ← JSBuf.wInt32BE y
    let ub ← JSBuf.wInt8 (if unit = 0 then 3 else unit)
    .ok ([0, 9] ++ xb ++ yb ++ ub)
  | typeRange lower upper => do
    let lb ← JSBuf.wInt32BE lower
    let ub ← JSBuf.wInt32BE upper
    .ok ([0, 9] ++ lb ++ ub)
  | typeStringWithLanguage _ _ _ =>
    .error "TypeError: this.value is undefined (the field is never set)"

end Value

/-! ## The per-tag value decoders (`src/lib/decode.js`) -/

namespace Decoders

open JSBuf

/-- `decoders[0x21]`, shared with `0x23`: signed 32-bit integer. -/
def decodeInteger (data : Bytes) (pos : Nat) (length : Int) (type : Int) :
    Except String Value :=
  if length ≠ 4 then .error "invalid integer size"
  else .ok (.typeNative type (.int (readInt32BE data pos)))

/-- `decoders[0x22]`: boolean, one byte. -/
def decodeBoolean (data : Bytes) (pos : Nat) (length : Int) (type : Int) :
    Except String Value :=
  if length ≠ 1 then .error "invalid size of bool"
  else .ok (.typeNative type (.bool (readInt8 data pos ≠ 0)))

/-- `decoders[0x30]`: octet string, a raw slice of the input. -/
def decodeOctetString (data : Bytes) (pos : Nat) (length : Int) (type : Int) :
    Except String Value :=
  .ok (.typeNative type (.buf (jsSlice data pos ((pos : Int) + length))))

/-- `decoders[0x31]`: RFC 2579 date/time.  The parsed fields are kept in a
`DateRaw`; the source's conversion to a host `Date` is timezone-dependent. -/
def decodeDateTime (data : Bytes) (pos : Nat) (length : Int) (type : Int) :
    Except String Value :=
  if length ≠ 11 then .error "invalid size"
  else
    let year := readUInt16BE data pos
    let month := readUInt8 data (pos + 2)
    let day := readUInt8 data (pos + 3)
    let hour := readUInt8 data (pos + 4)
    let minute := readUInt8 data (pos + 5)
    let second := readUInt8 data (pos + 6)
    let deci := readUInt8 data (pos + 7)
    let utcDir := toStringAscii data (pos + 8) (pos + 9)
    let utcAbs : Int := readUInt8 data (pos + 9) + 60 * readUInt8 data (pos + 10)
    if utcDir = "-" then
      .ok (.typeNative type (.date ⟨year, month, day, hour, minute, second, deci, -utcAbs⟩))
    else if utcDir ≠ "+" then .error "invalid timezone offset"
    else .ok (.typeNative type (.date ⟨year, month, day, hour, minute, second, deci, utcAbs⟩))

/-- `decoders[0x32]`: resolution; the `TypeResolution` constructor validates
the unit. -/
def decodeResolution (data : Bytes) (pos : Nat) (length : Int) (_type : Int) :
    Except String Value :=
  if length ≠ 9 then .error "invalid size"
  else
    let x := readInt32BE data pos
    let y := readInt32BE data (pos + 4)
    let unit := readInt8 data (pos + 8)
    Value.mkResolution x y unit

/-- `decoders[0x33]`: range of integers, exactly 8 payload octets. -/
def decodeRange (data : Bytes) (pos : Nat) (length : Int) (_type : Int) :
    Except String Value :=
  if length ≠ 8 then .error "invalid size"
  else
    let lower := readInt32BE data pos
    let upper := readInt32BE data (pos + 4)
    .ok (Value.mkRange lower upper)

/-- `decoders[0x35]`, shared with `0x36`: textWithLanguage /
nameWithLanguage.  The source's final `data.toString( pos, pos + stringLength )`
passes the numeric `pos` where an encoding name is expected, which makes
Node throw `Unknown encoding`; the bounds checks preceding it run first and
are modelled in their original order. -/
def decodeStringWithLanguage (data : Bytes) (pos : Nat) (length : Int) (_type : Int) :
    Except String Value :=
  if length < 2 then .error "met EOM while reading length of naturalLanguage"
  else
    let languageLength := readInt16BE data pos
    if length < 2 + languageLength then .error "met EOM while reading naturalLanguage"
    else
      let pos2 := pos + 2 + languageLength.toNat
      if length < 4 + languageLength then
        .error "met EOM while reading length of included string"
      else
        let stringLength := readInt16BE data pos2
        if length < 4 + languageLength + stringLength then
          .error "met EOM while reading included string"
        else .error "TypeError: Unknown encoding (toString called with a numeric encoding)"

/-- `decoders[0x41]`, shared with `0x42`: UTF-8 string. -/
def decodeUtf8String (data : Bytes) (pos : Nat) (length : Int) (type : Int) :
    Except String Value :=
  .ok (.typeNative type (.str (toStringUtf8 data pos ((pos : Int) + length))))

/-- `decoders[0x44]`, shared with `0x45`–`0x49`: US-ASCII string. -/
def decodeAsciiString (data : Bytes) (pos : Nat) (length : Int) (type : Int) :
    Except String Value :=
  .ok (.typeNative type (.str (toStringAscii data pos (pos + length.toNat))))

/-- The decoder dispatch table of `src/lib/decode.js`; a `none` entry is the
`undefined` the attribute loop rejects with `unsupported type of attribute's
value`.  Numeric aliases (`0x23 → 0x21` etc.) are resolved exactly as the
module-initialisation loop of the source resolves them. -/
def table (type : Int) : Option (Bytes → Nat → Int → Int → Except String Value) :=
  if type = 0x11 then some (fun _ _ _ _ => .ok .typeDefault)
  else if type = 0x12 then some (fun _ _ _ _ => .ok .typeUnknown)
  else if type = 0x13 then some (fun _ _ _ _ => .ok .typeNoValue)
  else if type = 0x21 ∨ type = 0x23 then some decodeInteger
  else if type = 0x22 then some decodeBoolean
  else if type = 0x30 then some decodeOctetString
  else if type = 0x31 then some decodeDateTime
  else if type = 0x32 then some decodeResolution
  else if type = 0x33 then some decodeRange
  else if type = 0x35 ∨ type = 0x36 then some decodeStringWithLanguage
  else if type = 0x41 ∨ type = 0x42 then some decodeUtf8String
  else if type = 0x44 ∨ type = 0x45 ∨ type = 0x46 ∨ type = 0x47 ∨ type = 0x48 ∨ type = 0x49 then
    some decodeAsciiString
  else none

end Decoders

/-! ## The message model (`src/lib/message.js`) -/

/-- One entry of an attribute pool: javascript code stores either a single
`Type` instance (as `deriveResponse` does) or an array of them (as the
decoder does). -/
inductive PoolVal where
  | single (v : Value)
  | arr (vs : List Value)
deriving DecidableEq, Repr

/-- An attribute pool: an insertion-ordered mapping from attribute names to
their values, as a javascript object with string keys is for the
non-integer-like names this protocol uses. -/
abbrev Pool := List (String × PoolVal)

/-- `pool[name].push(value)`: appends `v` to the array stored under `name`.
`push` on a `single` entry would be a javascript `TypeError`; the decoder
never reaches that case because it creates only arrays. -/
def poolUpdate (name : String) (v : Value) : Pool → Except String Pool
  | [] => .ok []
  | e :: rest =>
    if e.1 = name then
      match e.2 with
      | .arr vs => (poolUpdate name v rest).map (fun r => (e.1, PoolVal.arr (vs ++ [v])) :: r)
      | .single _ => .error "TypeError: pool entry has no push"
    else (poolUpdate name v rest).map (fun r => e :: r)

/-- `pool[name] = [value]` / `pool[name].push(value)` of the attribute loop:
a fresh name appends a one-element array, an existing name appends to its
array. -/
def poolInsert (pool : Pool) (name : String) (v : Value) : Except String Pool :=
  if pool.any (fun e => e.1 = name) then poolUpdate name v pool
  else .ok (pool ++ [(name, PoolVal.arr [v])])

/-- The four attribute groups of `this.attributes`, in the constructor's
field order. -/
structure Attributes where
  operation : Pool
  printer : Pool
  job : Pool
  unsupported : Pool
deriving DecidableEq, Repr

/-- `this.attributes[name]`. -/
def Attributes.get (a : Attributes) (name : String) : Pool :=
  if name = "operation" then a.operation
  else if name = "printer" then a.printer
  else if name = "job" then a.job
  else if name = "unsupported" then a.unsupported
  else []

/-- Functional update of `this.attributes[name]`. -/
def Attributes.set (a : Attributes) (name : String) (pool : Pool) : Attributes :=
  if name = "operation" then { a with operation := pool }
  else if name = "printer" then { a with printer := pool }
  else if name = "job" then { a with job := pool }
  else if name = "unsupported" then { a with unsupported := pool }
  else a

/-- The empty attribute set the `IPPMessage` constructor creates. -/
def Attributes.empty : Attributes := ⟨[], [], [], []⟩

/-- The `IPPMessage` state: `version`, `code`, `id` (both `null` until
parsed or assigned), the four attribute pools, and the optional trailing
`data`. -/
structure IPPMessage where
  version : String
  code : Option Int
  id : Option Int
  attributes : Attributes
  data : Option Bytes
deriving DecidableEq, Repr

/-- The freshly constructed message, before any parsing. -/
def IPPMessage.fresh : IPPMessage :=
  ⟨"1.1", none, none, Attributes.empty, none⟩

namespace IPPParse

open JSBuf

/-- One pass of `IPPMessage.prototype._parseAttributes`: reads attribute
records into `pool` until the next byte is below `0x10` (the start of the
next group), carrying the most recently seen attribute name for zero-length
continuation records.  The final `fuel` argument bounds the number of loop
iterations; the source loop can fail to terminate on adversarial negative
value lengths, which no theorem's input reaches. -/
def parseAttributesLoop (data : Bytes) :
    Nat → Nat → Pool → Option String → Except String (Nat × Pool)
  | _, 0, _, _ => .error "out of fuel (attribute loop)"
  | pos, fuel + 1, pool, nameOpt =>
    if pos < data.length then
      let type := readInt8 data pos
      if type < 0 then .error "invalid type of attribute"
      else if type < 0x10 then .ok (pos, pool)
      else
        let pos1 := pos + 1
        if pos1 + 2 > data.length then
          .error "met EOM while reading length of attribute' name"
        else
          let nameLength := readInt16BE data pos1
          if nameLength < 0 then .error "invalid length of attribute's name"
          else
            let pos2 := pos1 + 2
            let nameRes : Except String (String × Nat) :=
              if nameLength > 0 then
                if pos2 + nameLength.toNat > data.length then
                  .error "met EOM while reading attribute's name "
                else .ok (toStringAscii data pos2 (pos2 + nameLength.toNat), pos2 + nameLength.toNat)
              else
                match nameOpt with
                | none => .error "unexpected additional value"
                | some n => .ok (n, pos2)
            match nameRes with
            | .error e => .error e
            | .ok (name, pos3) =>
              if pos3 + 2 > data.length then
                .error ("met EOM while reading length of attribute's value: " ++ name)
              else
                let valueLength := readInt16BE data pos3
                let pos4 := pos3 + 2
                if valueLength > 0 ∧ (pos4 : Int) + valueLength > (data.length : Int) then
                  .error ("met EOM while reading value of attribute: " ++ name)
                else
                  let extRes : Except String (Int × Nat × Int) :=
                    if type = 0x7f then
                      if valueLength < 4 then
                        .error ("met EOM while reading extended value tag of attribute: " ++ name)
                      else .ok (readInt32BE data pos4, pos4 + 4, valueLength - 4)
                    else .ok (type, pos4, valueLength)
                  match extRes with
                  | .error e => .error e
                  | .ok (type2, pos5, valueLength2) =>
                    match Decoders.table type2 with
                    | none => .error ("unsupported type of attribute's value: " ++ name)
                    | some converter =>
                      match converter data pos5 valueLength2 type2 with
                      | .error e =>
                        .error ("on converting value of attribute " ++ name ++ ": " ++ e)
                      | .ok value =>
                        let next : Int := (pos5 : Int) + valueLength2
                        if next < 0 then .error "attribute position out of range"
                        else
                          match poolInsert pool name value with
                          | .error e => .error e
                          | .ok pool2 =>
                            parseAttributesLoop data next.toNat fuel pool2 (some name)
    else .error "met EOM while reading attribute type"

/-- `IPPMessage.prototype._parseAttributeGroup`: alternates between reading
a group tag and parsing that group's attributes; the `0x03` sentinel hands
the remaining bytes to `_parseContent`. -/
def parseGroupsLoop (data : Bytes) :
    Nat → Nat → Attributes → Except String (Attributes × Bytes)
  | _, 0, _ => .error "out of fuel (group loop)"
  | pos, fuel + 1, attrs =>
    if pos < data.length then
      let type := readUInt8 data pos
      let pos1 := pos + 1
      match attributeGroup (type : Int) with
      | some none => .ok (attrs, jsSliceFrom data pos1)
      | some (some name) =>
        match parseAttributesLoop data pos1 (data.length + 1) (attrs.get name) none with
        | .error e => .error e
        | .ok (pos2, pool) => parseGroupsLoop data pos2 fuel (attrs.set name pool)
      | none => .error "unsupported attribute group type"
    else .error "unexpected EOM"

/-- `IPPMessage.prototype._parse`: header fields, then the group loop. -/
def parseInto (data : Bytes) : Except String IPPMessage :=
  if data.length < 8 then .error "missing required information in message"
  else
    let version := (readInt8 data 0).repr ++ "." ++ (readInt8 data 1).repr
    let code := readInt16BE data 2
    let id := readInt32BE data 4
    match parseGroupsLoop data 8 (data.length + 1) Attributes.empty with
    | .error e => .error e
    | .ok (attrs, content) =>
      .ok ⟨version, some code, some id, attrs, some content⟩

/-- The `IPPMessage` constructor: parses only when a non-empty buffer is
provided. -/
def mkIPPMessage (rawBuffer : Option Bytes) : Except String IPPMessage :=
  match rawBuffer with
  | some data => if data.length > 0 then parseInto data else .ok IPPMessage.fresh
  | none => .ok IPPMessage.fresh

/-- `exports.parse` of `src/index.js`: `new IPPMessage(rawMessage)`. -/
def parseMessage (data : Bytes) : Except String IPPMessage :=
  mkIPPMessage (some data)

end IPPParse

/-! ## The encoder (`IPPMessage.prototype.toBuffer` and helpers) -/

namespace IPPEncode

open JSBuf

/-- The `flip` map of `getProperlySortedGroups`: the first positional index
of a name in the provided list. -/
def flipIdx (sortedGroupNames : List String) (name : String) : Option Nat :=
  sortedGroupNames.findIdx? (fun n => n = name)

/-- The sort key of `getProperlySortedGroups`'s comparator: the positional
index for listed names, `999999` for the end-marker sentinel and `99999`
for any other group. -/
def groupSortKey (sortedGroupNames : List String) (num : Nat) : Nat :=
  match attributeGroup (num : Int) with
  | some none => 999999
  | some (some s) =>
    match flipIdx sortedGroupNames s with
    | some i => i
    | none => 99999
  | none => 99999

/-- Insertion step of the comparator sort. -/
def insertByKey (key : Nat → Nat) (x : Nat) : List Nat → List Nat
  | [] => [x]
  | y :: ys => if key x ≤ key y then x :: y :: ys else y :: insertByKey key x ys

/-- Comparator sort over the numeric group tags (`Object.keys` of
`ATTRIBUTE_GROUP`, i.e. `[1, 2, 3, 4, 5]` in ascending integer-key order);
the comparator is a strict total order on these five keys, so any correct
sort produces the same list the javascript engine does. -/
def sortByKey (key : Nat → Nat) : List Nat → List Nat
  | [] => []
  | x :: xs => insertByKey key x (sortByKey key xs)

/-- `getProperlySortedGroups` of `src/lib/message.js`. -/
def getProperlySortedGroups (sortedGroupNames : List String) : List Nat :=
  sortByKey (groupSortKey sortedGroupNames) [1, 2, 3, 4, 5]

/-- `IPPMessage.prototype._compileAttribute`: the value-tag byte, the
16-bit name length, the ASCII name, then the value's own length-prefixed
payload buffer. -/
def compileAttribute (name : String) (value : Value) : Except String Bytes := do
  let tagByte ← wInt8 value.type
  let nameLen ← wInt16BE (name.length : Int)
  let payload ← value.toBuffer
  .ok (tagByte ++ nameLen ++ asciiEncode name ++ payload)

/-- The continuation records of a multi-valued attribute: every value after
the first is emitted with an empty name (`index ? "" : name`). -/
def compileContinuations : List Value → Except String Bytes
  | [] => .ok []
  | v :: vs => do
    let first ← compileAttribute "" v
    let rest ← compileContinuations vs
    .ok (first ++ rest)

/-- All records of one attribute: the first value carries the name. -/
def compileValueList (name : String) : List Value → Except String Bytes
  | [] => .ok []
  | v :: vs => do
    let first ← compileAttribute name v
    let rest ← compileContinuations vs
    .ok (first ++ rest)

/-- `values instanceof Type` normalisation of `_compileAttributeGroup`. -/
def normalizeValues : PoolVal → List Value
  | .single v => [v]
  | .arr vs => vs

/-- `IPPMessage.prototype._compileAttributeGroup`: all attributes of one
pool, in key-insertion order. -/
def compileAttributeGroup : Pool → Except String Bytes
  | [] => .ok []
  | (name, pv) :: rest => do
    let first ← compileValueList name (normalizeValues pv)
    let tail ← compileAttributeGroup rest
    .ok (first ++ tail)

/-- One group's contribution to `_compileAttributeGroups`: the tag byte and
the group's records when the pool is non-empty, nothing otherwise. -/
def groupSection (attrs : Attributes) (tag : Nat) : Except String Bytes :=
  match attributeGroup (tag : Int) with
  | some (some name) =>
    let pool := attrs.get name
    if pool.length > 0 then do
      let body ← compileAttributeGroup pool
      .ok (tag :: body)
    else .ok []
  | _ => .ok []

/-- Folds the sections of all sorted group tags. -/
def groupSections (attrs : Attributes) : List Nat → Except String Bytes
  | [] => .ok []
  | tag :: rest => do
    let first ← groupSection attrs tag
    let tail ← groupSections attrs rest
    .ok (first ++ tail)

/-- `IPPMessage.prototype._compileAttributeGroups`: every non-empty group in
the sorted tag order, then the `0x03` end-of-attribute-groups marker. -/
def compileAttributeGroups (attrs : Attributes) : Except String Bytes := do
  let body ← groupSections attrs (getProperlySortedGroups ["operation", "printer", "job", "unsupported"])
  .ok (body ++ [3])

/-- `IPPMessage.prototype._compileHeader`.  A `null` code passes the
`isNaN` check (javascript `isNaN(null)` is false) and then throws at
`writeInt16BE(parseInt(null))`; that throw is modelled by the checked
write's error. -/
def compileHeader (m : IPPMessage) : Except String Bytes :=
  let version := jsSplitDot m.version
  match (version.get? 0).bind jsParseInt, (version.get? 1).bind jsParseInt with
  | some major, some minor =>
    if version.length ≠ 2 ∨ major < 1 ∨ major > 255 ∨ minor < 0 ∨ minor > 255 then
      .error "invalid version"
    else do
      let mj ← wInt8 major
      let mi ← wInt8 minor
      let cb ← match m.code with
        | none => Except.error "writeInt16BE value out of range"
        | some c => wInt16BE c
      match m.id with
      | none => .error "missing request-id"
      | some i =>
        if i = 0 then .error "missing request-id"
        else do
          let ib ← wInt32BE i
          .ok (mj ++ mi ++ cb ++ ib)
  | _, _ => .error "invalid version"

/-- `IPPMessage.prototype._compileData`. -/
def compileData (m : IPPMessage) : Bytes :=
  match m.data with
  | some d => d
  | none => []

/-- `IPPMessage.prototype.toBuffer` (without the stray `fs.writeFile` side
effect, which does not affect the returned buffer). -/
def encodeMessage (m : IPPMessage) : Except String Bytes := do
  let header ← compileHeader m
  let groups ← compileAttributeGroups m.attributes
  .ok (header ++ groups ++ compileData m)

end IPPEncode

/-! ## Generator helpers (`src/lib/generate.js`) -/

namespace IPPGenerate

/-- A javascript argument to `generateEnum`: a number or a string label. -/
inductive EnumArg where
  | num (n : Int)
  | label (s : String)
deriving DecidableEq, Repr

/-- Javascript `ToNumber` on the arguments `generateEnum` compares with
`value > 1`: numbers are themselves; strings coerce through their numeric
value, `none` modelling `NaN` (which makes every comparison false). -/
def toNumber : EnumArg → Option Int
  | .num n => some n
  | .label s => if s.data ≠ [] ∧ s.data.all (fun c => c.isDigit) then jsParseInt s else none

/-- `parseInt(value)` as applied by `generateEnum` once the numeric branch
is taken. -/
def enumParseInt : EnumArg → Option Int
  | .num n => some n
  | .label s => jsParseInt s

/-- `generateEnum` of `src/lib/generate.js`: a numeric value strictly
between 1 and `MaxInteger` is taken as-is; otherwise an array of values must
be provided and the value's index in it is used; a missing value fails with
`invalid enum value`, a missing array with `invalid set of enum values`. -/
def generateEnum (value : EnumArg) (setOfValues : Option (List EnumArg)) :
    Except String Value :=
  match toNumber value with
  | some n =>
    if n > 1 ∧ n < MaxInteger then
      match enumParseInt value with
      | some intValue => .ok (.typeNative 0x23 (.int intValue))
      | none => .error "unreachable: parseInt of a numeric value"
    else
      match setOfValues with
      | some set =>
        match set.findIdx? (fun x => x = value) with
        | some i => .ok (.typeNative 0x23 (.int i))
        | none => .error "invalid enum value"
      | none => .error "invalid set of enum values"
  | none =>
    match setOfValues with
    | some set =>
      match set.findIdx? (fun x => x = value) with
      | some i => .ok (.typeNative 0x23 (.int i))
      | none => .error "invalid enum value"
    | none => .error "invalid set of enum values"

end IPPGenerate

/-! ## The streaming header scanner (`src/lib/stream-parser.js`) -/

namespace IPPStream

open JSBuf

/-- The loop of `_getEndOfHeaderIndex`: alternating between expecting a
group tag (`readGroup = true`) and skipping an attribute record.  A result
of `-1` means "no complete header yet".  The loop either advances `pos` or
flips `readGroup` from false to true (the push-back case), so `2·len + 2`
iterations always suffice; the fuel argument makes that explicit. -/
def scanLoop (buffer : Bytes) : Nat → Bool → Nat → Int
  | _, _, 0 => -1
  | pos, readGroup, fuel + 1 =>
    if pos < buffer.length then
      if readGroup then
        let ch := readInt8 buffer pos
        let pos1 := pos + 1
        if attributeGroup ch = some none then (pos1 : Int)
        else scanLoop buffer pos1 false fuel
      else
        let ch := readInt8 buffer pos
        let pos1 := pos + 1
        if (attributeGroup ch).isSome then scanLoop buffer pos true fuel
        else if pos1 + 1 < buffer.length then
          let nameLength := readInt16BE buffer pos1
          if nameLength < 0 then -1
          else
            let pos2 := pos1 + 2 + nameLength.toNat
            if pos2 + 1 < buffer.length then
              let valueLength := readInt16BE buffer pos2
              if valueLength < 0 then -1
              else scanLoop buffer (pos2 + 2 + valueLength.toNat) false fuel
            else scanLoop buffer pos2 false fuel
        else scanLoop buffer pos1 false fuel
    else -1

/-- `_getEndOfHeaderIndex`: loose scan for the end-of-groups marker,
starting at offset 8; `none` models the `null` collector. -/
def getEndOfHeaderIndex (buffer : Option Bytes) : Int :=
  match buffer with
  | none => -1
  | some b => scanLoop b 8 true (2 * b.length + 2)

/-- The observable state of an `IPPMessageStreamParser`: the collect
buffer, the parsed header message once found, the error latch, the body
chunks pushed to the readable side and the `message` events emitted. -/
structure PState where
  collector : Option Bytes
  message : Option IPPMessage
  error : Bool
  pushed : List Bytes
  emitted : List IPPMessage
deriving DecidableEq, Repr

/-- The state of a freshly constructed stream parser. -/
def PState.init : PState := ⟨none, none, false, [], []⟩

/-- `IPPMessageStreamParser.prototype._write` on one chunk. -/
def writeChunk (st : PState) (chunk : Bytes) : PState :=
  if st.error then st
  else
    match st.message with
    | none =>
      let collector :=
        match st.collector with
        | none => chunk
        | some c => c ++ chunk
      let eoh := getEndOfHeaderIndex (some collector)
      if eoh ≥ 0 then
        match IPPParse.mkIPPMessage (some (collector.take eoh.toNat)) with
        | .ok m =>
          let rest := jsSliceFrom collector eoh.toNat
          { st with
            collector := none
            message := some m
            emitted := st.emitted ++ [m]
            pushed := if rest.length > 0 then st.pushed ++ [rest] else st.pushed }
        | .error _ =>
          { st with collector := some collector, error := true }
      else { st with collector := some collector }
    | some _ =>
      if chunk.length > 0 then { st with pushed := st.pushed ++ [chunk] } else st

/-- Writing a whole list of chunks in order. -/
def runStream (chunks : List Bytes) : PState :=
  chunks.foldl writeChunk PState.init

end IPPStream

/-! ## Read/write round-trip facts about the buffer model -/

namespace JSBuf

theorem byteAt_cons_zero (a : Nat) (l : Bytes) : byteAt (a :: l) 0 = a := rfl

theorem byteAt_cons_succ (a : Nat) (l : Bytes) (k : Nat) :
    byteAt (a :: l) (k + 1) = byteAt l k := rfl

theorem byteAt_of_drop {data suffix : Bytes} {pos : Nat} (hd : data.drop pos = suffix)
    (k : Nat) : byteAt data (pos + k) = byteAt suffix k := by
  have h2 : suffix.drop k = data.drop (pos + k) := by
    rw [← hd, List.drop_drop, Nat.add_comm]
  unfold byteAt
  rw [← h2]

theorem drop_advance {data suffix A B : Bytes} {pos : Nat} (hd : data.drop pos = suffix)
    (hs : suffix = A ++ B) : data.drop (pos + A.length) = B := by
  have h2 : suffix.drop A.length = data.drop (pos + A.length) := by
    rw [← hd, List.drop_drop, Nat.add_comm]
  rw [← h2, hs, List.drop_left]

theorem length_int16BE (v : Int) : (int16BE v).length = 2 := rfl

theorem length_int32BE (v : Int) : (int32BE v).length = 4 := rfl

theorem readInt16BE_int16BE (v : Int) (rest : Bytes) (h1 : -32768 ≤ v) (h2 : v < 32768) :
    readInt16BE (int16BE v ++ rest) 0 = v := by
  have hv : 0 ≤ v % 65536 := Int.emod_nonneg v (by norm_num)
  unfold readInt16BE readUInt16BE int16BE
  simp only [List.cons_append, byteAt_cons_zero, byteAt_cons_succ]
  have hv2 : v % 65536 < 65536 := Int.emod_lt_of_pos v (by norm_num)
  generalize hw : (v % 65536).toNat = w
  have hwi : (w : Int) = v % 65536 := by rw [← hw]; exact Int.toNat_of_nonneg hv
  have hrec : 256 * (w / 256 % 256) + w % 256 = w := by omega
  rw [hrec]
  split_ifs with hcond <;> omega

theorem readInt32BE_int32BE (v : Int) (rest : Bytes) (h1 : -2147483648 ≤ v)
    (h2 : v < 2147483648) : readInt32BE (int32BE v ++ rest) 0 = v := by
  have hv : 0 ≤ v % 4294967296 := Int.emod_nonneg v (by norm_num)
  unfold readInt32BE readUInt32BE int32BE
  simp only [List.cons_append, byteAt_cons_zero, byteAt_cons_succ]
  have hv2 : v % 4294967296 < 4294967296 := Int.emod_lt_of_pos v (by norm_num)
  generalize hw : (v % 4294967296).toNat = w
  have hwi : (w : Int) = v % 4294967296 := by rw [← hw]; exact Int.toNat_of_nonneg hv
  have hrec : 16777216 * (w / 16777216 % 256) + 65536 * (w / 65536 % 256)
      + 256 * (w / 256 % 256) + w % 256 = w := by omega
  rw [hrec]
  split_ifs with hcond <;> omega

end JSBuf

/-! ## Well-formed messages and their wire shape

The encoder of the source is inverted by the decoder only on a subset of the
value kinds (`TypeRange` writes a wrong length prefix, `TypeNative` buffers
are written without a length prefix, `TypeStringWithLanguage.toBuffer`
throws, `Date` serialization is host-dependent).  The predicates below carve
out the kinds and field ranges on which the round trip holds; the pure
`…Bytes` functions describe the exact octets the faithful encoder produces
on them. -/

/-- 7-bit strings: `ascii`/`utf8` writes and reads are the identity on
these. -/
def AsciiString (s : String) : Prop := ∀ c ∈ s.data, c.toNat < 128

instance : DecidablePred AsciiString := fun s =>
  inferInstanceAs (Decidable (∀ c ∈ s.data, c.toNat < 128))

/-- Attribute names that survive the wire: non-empty 7-bit ASCII, short
enough for `writeInt16BE`. -/
def SafeName (s : String) : Prop := AsciiString s ∧ 1 ≤ s.length ∧ s.length ≤ 32767

instance : DecidablePred SafeName := fun s => by
  unfold SafeName; infer_instance

/-- The string-family value tags. -/
def strTags : List Int := [0x41, 0x42, 0x44, 0x45, 0x46, 0x47, 0x48, 0x49]

/-- The value kinds (with their field ranges) whose payload encoding the
decoder inverts exactly. -/
def SafeValue : Value → Prop
  | .typeDefault => True
  | .typeUnknown => True
  | .typeNoValue => True
  | .typeNative t (.int n) => (t = 0x21 ∨ t = 0x23) ∧ -2147483648 ≤ n ∧ n ≤ 2147483647
  | .typeNative t (.bool _) => t = 0x22
  | .typeNative t (.str s) => t ∈ strTags ∧ AsciiString s ∧ s.length ≤ 32767
  | .typeResolution x y u =>
    (-2147483648 ≤ x ∧ x ≤ 2147483647) ∧ (-2147483648 ≤ y ∧ y ≤ 2147483647) ∧ (u = 3 ∨ u = 4)
  | _ => False

instance instDecSafeValue : DecidablePred SafeValue := by
  intro v
  cases v with
  | typeNative t jsv => cases jsv <;> (unfold SafeValue; infer_instance)
  | typeDefault => unfold SafeValue; infer_instance
  | typeUnknown => unfold SafeValue; infer_instance
  | typeNoValue => unfold SafeValue; infer_instance
  | typeResolution x y u => unfold SafeValue; infer_instance
  | typeRange l u => unfold SafeValue; infer_instance
  | typeStringWithLanguage t s l => unfold SafeValue; infer_instance

/-- One well-formed pool entry: safe name, a non-empty array of safe
values. -/
def WFEntry (e : String × PoolVal) : Prop :=
  SafeName e.1 ∧
    match e.2 with
    | .arr vs => vs ≠ [] ∧ ∀ v ∈ vs, SafeValue v
    | .single _ => False

instance : DecidablePred WFEntry := fun e => by
  unfold WFEntry
  cases e.2 <;> infer_instance

/-- A well-formed pool: distinct names, well-formed entries. -/
def WFPool (pool : Pool) : Prop :=
  (pool.map Prod.fst).Nodup ∧ ∀ e ∈ pool, WFEntry e

instance : DecidablePred WFPool := fun pool => by
  unfold WFPool; infer_instance

/-- The value-tag byte a safe value's record carries. -/
def tagByteOf (v : Value) : Nat := v.type.toNat

/-- The payload octets the faithful encoder produces for a safe value
(junk on unsafe kinds, which no round-trip theorem touches). -/
def payloadOf : Value → Bytes
  | .typeDefault => []
  | .typeUnknown => []
  | .typeNoValue => []
  | .typeNative _ (.int n) => JSBuf.int32BE n
  | .typeNative _ (.bool b) => [if b then 1 else 0]
  | .typeNative _ (.str s) => JSBuf.utf8Encode s
  | .typeNative _ (.buf b) => b
  | .typeNative _ (.date _) => []
  | .typeResolution x y u => JSBuf.int32BE x ++ JSBuf.int32BE y ++ [u.toNat]
  | .typeRange l u => JSBuf.int32BE l ++ JSBuf.int32BE u
  | .typeStringWithLanguage _ _ _ => []

/-- One wire record: tag byte, name length, name, value length, value. -/
def recBytes (tb : Nat) (name : String) (payload : Bytes) : Bytes :=
  tb :: (JSBuf.int16BE (name.length : Int) ++ JSBuf.asciiEncode name
    ++ JSBuf.int16BE (payload.length : Int) ++ payload)

/-- The record of one value of an attribute. -/
def valueRec (name : String) (v : Value) : Bytes := recBytes (tagByteOf v) name (payloadOf v)

/-- All records of one attribute: the first carries the name, the rest an
empty name. -/
def attrBytes (name : String) : List Value → Bytes
  | [] => []
  | v :: vs => valueRec name v ++ (vs.map (valueRec "")).flatten

/-- The records of a whole pool, in insertion order. -/
def poolBytes (pool : Pool) : Bytes :=
  (pool.map (fun e => attrBytes e.1 (IPPEncode.normalizeValues e.2))).flatten

/-- One group section: tag byte plus records when non-empty, nothing
otherwise. -/
def sectionBytes (tag : Nat) (pool : Pool) : Bytes :=
  if pool.length > 0 then tag :: poolBytes pool else []

/-- The attribute-group area the encoder produces: operation, printer, job,
unsupported, then the end marker. -/
def groupsBytes (a : Attributes) : Bytes :=
  sectionBytes 1 a.operation ++ sectionBytes 4 a.printer ++ sectionBytes 2 a.job
    ++ sectionBytes 5 a.unsupported ++ [3]

/-- The 8-byte header. -/
def headerBytes (maj minr : Nat) (c i : Int) : Bytes :=
  [maj, minr] ++ JSBuf.int16BE c ++ JSBuf.int32BE i

/-- The canonical decimal version string `"maj.minr"`, the exact form the
decoder reconstructs. -/
def versionString (maj minr : Nat) : String :=
  ((maj : Int)).repr ++ "." ++ ((minr : Int)).repr

/-- Everything `decode ∘ encode = id` requires of a message: canonical
version in `1..127` / `0..127` (`writeInt8` throws beyond 127), a 16-bit
code, a non-zero 32-bit id, well-formed pools and a present (possibly
empty) `data`. -/
structure WFMessage (m : IPPMessage) (maj minr : Nat) (c i : Int) (d : Bytes) : Prop where
  hver : m.version = versionString maj minr
  hmaj1 : 1 ≤ maj
  hmaj2 : maj ≤ 127
  hmin : minr ≤ 127
  hcode : m.code = some c
  hc1 : -32768 ≤ c
  hc2 : c ≤ 32767
  hid : m.id = some i
  hi1 : -2147483648 ≤ i
  hi2 : i ≤ 2147483647
  hi0 : i ≠ 0
  hdata : m.data = some d
  hop : WFPool m.attributes.operation
  hpr : WFPool m.attributes.printer
  hjob : WFPool m.attributes.job
  huns : WFPool m.attributes.unsupported

/-! ## The encoder produces exactly this wire shape on well-formed input -/

theorem utf8EncodeChar_ascii {c : Char} (h : c.toNat < 128) :
    JSBuf.utf8EncodeChar c = [c.toNat] := by
  unfold JSBuf.utf8EncodeChar
  rw [if_pos h]

theorem flatten_map_utf8_ascii (l : List Char) (h : ∀ c ∈ l, c.toNat < 128) :
    (l.map JSBuf.utf8EncodeChar).flatten = l.map Char.toNat := by
  induction l with
  | nil => rfl
  | cons c rest ih =>
    simp only [List.map_cons, List.flatten_cons]
    rw [utf8EncodeChar_ascii (h c (List.mem_cons_self c rest)),
      ih (fun x hx => h x (List.mem_cons_of_mem c hx))]
    rfl

theorem utf8Encode_ascii {s : String} (h : AsciiString s) :
    JSBuf.utf8Encode s = s.data.map Char.toNat := by
  unfold JSBuf.utf8Encode
  exact flatten_map_utf8_ascii s.data h

theorem length_utf8Encode_ascii {s : String} (h : AsciiString s) :
    (JSBuf.utf8Encode s).length = s.length := by
  rw [utf8Encode_ascii h, List.length_map]
  rfl

theorem asciiEncode_ascii {s : String} (h : AsciiString s) :
    JSBuf.asciiEncode s = s.data.map Char.toNat := by
  unfold JSBuf.asciiEncode
  exact List.map_congr_left (fun c hc => Nat.mod_eq_of_lt (by
    have := h c hc
    omega))

theorem length_asciiEncode (s : String) : (JSBuf.asciiEncode s).length = s.length := by
  unfold JSBuf.asciiEncode
  rw [List.length_map]
  rfl

theorem tag_range {v : Value} (h : SafeValue v) : 0x10 < v.type ∧ v.type ≤ 0x49 := by
  cases v with
  | typeNative t jsv =>
    cases jsv with
    | int n =>
      simp only [SafeValue] at h
      obtain ⟨ht, -, -⟩ := h
      rcases ht with h | h <;> simp [Value.type, h]
    | bool b =>
      simp only [SafeValue] at h
      simp [Value.type, h]
    | str s =>
      simp only [SafeValue] at h
      obtain ⟨ht, -, -⟩ := h
      simp only [strTags, List.mem_cons, List.not_mem_nil, or_false] at ht
      rcases ht with h | h | h | h | h | h | h | h <;> simp [Value.type, h]
    | buf b => simp only [SafeValue] at h
    | date d => simp only [SafeValue] at h
  | typeDefault => exact ⟨by norm_num [Value.type], by norm_num [Value.type]⟩
  | typeUnknown => exact ⟨by norm_num [Value.type], by norm_num [Value.type]⟩
  | typeNoValue => exact ⟨by norm_num [Value.type], by norm_num [Value.type]⟩
  | typeResolution x y u => exact ⟨by norm_num [Value.type], by norm_num [Value.type]⟩
  | typeRange l u => simp only [SafeValue] at h
  | typeStringWithLanguage t s l => simp only [SafeValue] at h

theorem payload_len_le {v : Value} (h : SafeValue v) : (payloadOf v).length ≤ 32767 := by
  cases v with
  | typeNative t jsv =>
    cases jsv with
    | int n => simp [payloadOf, JSBuf.int32BE]
    | bool b => simp [payloadOf]
    | str s =>
      simp only [SafeValue] at h
      obtain ⟨-, hs, hl⟩ := h
      simp only [payloadOf]
      rw [length_utf8Encode_ascii hs]
      exact hl
    | buf b => simp only [SafeValue] at h
    | date d => simp only [SafeValue] at h
  | typeDefault => simp [payloadOf]
  | typeUnknown => simp [payloadOf]
  | typeNoValue => simp [payloadOf]
  | typeResolution x y u => simp [payloadOf, JSBuf.int32BE]
  | typeRange l u => simp only [SafeValue] at h
  | typeStringWithLanguage t s l => simp only [SafeValue] at h

theorem toBuffer_safe {v : Value} (h : SafeValue v) :
    v.toBuffer = .ok (JSBuf.int16BE ((payloadOf v).length : Int) ++ payloadOf v) := by
  cases v with
  | typeNative t jsv =>
    cases jsv with
    | int n =>
      simp only [SafeValue] at h
      obtain ⟨-, h1, h2⟩ := h
      simp only [Value.toBuffer, JSBuf.wInt32BE, payloadOf]
      rw [if_pos ⟨h1, h2⟩, JSBuf.length_int32BE]
      rfl
    | bool b =>
      have hlen : (payloadOf (Value.typeNative t (.bool b))).length = 1 := rfl
      simp only [Value.toBuffer, payloadOf] at hlen ⊢
      rw [hlen]
      rfl
    | str s =>
      simp only [SafeValue] at h
      obtain ⟨-, hs, hl⟩ := h
      simp only [Value.toBuffer, JSBuf.wInt16BE, payloadOf]
      rw [if_pos]
      · rfl
      · rw [length_utf8Encode_ascii hs]
        constructor <;> omega
    | buf b => simp only [SafeValue] at h
    | date d => simp only [SafeValue] at h
  | typeDefault => rfl
  | typeUnknown => rfl
  | typeNoValue => rfl
  | typeResolution x y u =>
    simp only [SafeValue] at h
    obtain ⟨⟨hx1, hx2⟩, ⟨hy1, hy2⟩, hu⟩ := h
    simp only [Value.toBuffer, JSBuf.wInt32BE, JSBuf.wInt8, payloadOf]
    rw [if_pos ⟨hx1, by omega⟩, if_pos ⟨hy1, by omega⟩]
    have hu0 : ¬ u = 0 := by rcases hu with h | h <;> omega
    rw [if_neg hu0, if_pos (by rcases hu with h | h <;> omega)]
    have hub : (u % 256).toNat = u.toNat := by rcases hu with h | h <;> simp [h]
    rw [hub]
    have hlen : ((JSBuf.int32BE x ++ JSBuf.int32BE y ++ [u.toNat]).length : Int) = (9 : Int) := by
      simp [JSBuf.int32BE]
    rw [hlen]
    rfl
  | typeRange l u => simp only [SafeValue] at h
  | typeStringWithLanguage t s l => simp only [SafeValue] at h

theorem compileAttribute_safe {v : Value} {name : String} (hv : SafeValue v)
    (_hn : AsciiString name) (hl : name.length ≤ 32767) :
    IPPEncode.compileAttribute name v = .ok (valueRec name v) := by
  obtain ⟨ht1, ht2⟩ := tag_range hv
  unfold IPPEncode.compileAttribute
  rw [toBuffer_safe hv]
  simp only [JSBuf.wInt8, JSBuf.wInt16BE]
  rw [if_pos (by omega : -128 ≤ v.type ∧ v.type ≤ 127),
    if_pos (by constructor <;> omega : -32768 ≤ (name.length : Int) ∧ (name.length : Int) ≤ 32767)]
  have htb : (v.type % 256).toNat = tagByteOf v := by
    unfold tagByteOf
    have : v.type % 256 = v.type := Int.emod_eq_of_lt (by omega) (by omega)
    rw [this]
  simp only [Except.bind, bind]
  rw [htb]
  unfold valueRec recBytes
  simp [List.append_assoc]

theorem compileContinuations_safe {vs : List Value} (h : ∀ v ∈ vs, SafeValue v) :
    IPPEncode.compileContinuations vs = .ok ((vs.map (valueRec "")).flatten) := by
  induction vs with
  | nil => rfl
  | cons v rest ih =>
    unfold IPPEncode.compileContinuations
    rw [compileAttribute_safe (h v (List.mem_cons_self v rest)) (by intro c hc; cases hc)
        (by norm_num),
      ih (fun x hx => h x (List.mem_cons_of_mem v hx))]
    simp [Except.bind, bind]

theorem compileValueList_safe {name : String} {vs : List Value} (hv : ∀ v ∈ vs, SafeValue v)
    (hn : AsciiString name) (hl : name.length ≤ 32767) :
    IPPEncode.compileValueList name vs = .ok (attrBytes name vs) := by
  cases vs with
  | nil => rfl
  | cons v rest =>
    simp only [IPPEncode.compileValueList]
    rw [compileAttribute_safe (hv v (List.mem_cons_self v rest)) hn hl,
      compileContinuations_safe (fun x hx => hv x (List.mem_cons_of_mem v hx))]
    simp [attrBytes, Except.bind, bind]

theorem compileAttributeGroup_safe {pool : Pool} (h : ∀ e ∈ pool, WFEntry e) :
    IPPEncode.compileAttributeGroup pool = .ok (poolBytes pool) := by
  induction pool with
  | nil => rfl
  | cons e rest ih =>
    obtain ⟨name, pv⟩ := e
    have he := h _ (List.mem_cons_self _ rest)
    unfold WFEntry at he
    obtain ⟨⟨hascii, -, hlen⟩, harr⟩ := he
    unfold IPPEncode.compileAttributeGroup
    have hvals : ∀ v ∈ IPPEncode.normalizeValues pv, SafeValue v := by
      cases pv with
      | single v => exact absurd harr (by simp)
      | arr vs => exact harr.2
    rw [compileValueList_safe hvals hascii hlen, ih (fun x hx => h x (List.mem_cons_of_mem _ hx))]
    simp [poolBytes, Except.bind, bind]

theorem groupSection_safe {attrs : Attributes} {tag : Nat} {name : String}
    (hlook : attributeGroup (tag : Int) = some (some name))
    (hpool : ∀ e ∈ attrs.get name, WFEntry e) :
    IPPEncode.groupSection attrs tag = .ok (sectionBytes tag (attrs.get name)) := by
  unfold sectionBytes
  simp only [IPPEncode.groupSection, hlook]
  by_cases hne : (attrs.get name).length > 0
  · rw [if_pos hne, if_pos hne, compileAttributeGroup_safe hpool]
    rfl
  · rw [if_neg hne, if_neg hne]

theorem compileAttributeGroups_safe {attrs : Attributes}
    (h1 : ∀ e ∈ attrs.operation, WFEntry e) (h4 : ∀ e ∈ attrs.printer, WFEntry e)
    (h2 : ∀ e ∈ attrs.job, WFEntry e) (h5 : ∀ e ∈ attrs.unsupported, WFEntry e) :
    IPPEncode.compileAttributeGroups attrs = .ok (groupsBytes attrs) := by
  have hsort : IPPEncode.getProperlySortedGroups ["operation", "printer", "job", "unsupported"]
      = [1, 4, 2, 5, 3] := by decide
  have hl1 : attributeGroup ((1 : Nat) : Int) = some (some "operation") := by decide
  have hl4 : attributeGroup ((4 : Nat) : Int) = some (some "printer") := by decide
  have hl2 : attributeGroup ((2 : Nat) : Int) = some (some "job") := by decide
  have hl5 : attributeGroup ((5 : Nat) : Int) = some (some "unsupported") := by decide
  have hg1 : IPPEncode.groupSection attrs 1 = .ok (sectionBytes 1 attrs.operation) :=
    groupSection_safe hl1 h1
  have hg4 : IPPEncode.groupSection attrs 4 = .ok (sectionBytes 4 attrs.printer) :=
    groupSection_safe hl4 h4
  have hg2 : IPPEncode.groupSection attrs 2 = .ok (sectionBytes 2 attrs.job) :=
    groupSection_safe hl2 h2
  have hg5 : IPPEncode.groupSection attrs 5 = .ok (sectionBytes 5 attrs.unsupported) :=
    groupSection_safe hl5 h5
  have hg3 : IPPEncode.groupSection attrs 3 = .ok [] := rfl
  unfold IPPEncode.compileAttributeGroups
  rw [hsort]
  simp only [IPPEncode.groupSections]
  rw [hg1, hg4, hg2, hg5, hg3]
  simp [groupsBytes, Except.bind, bind]

theorem jsSplitDotAux_no_dot (l acc : List Char) (h : '.' ∉ l) :
    jsSplitDotAux l acc = [String.mk (acc.reverse ++ l)] := by
  induction l generalizing acc with
  | nil => simp [jsSplitDotAux]
  | cons c rest ih =>
    have hc : ¬ c = '.' := by
      intro hc
      exact h (by rw [← hc]; exact List.mem_cons_self c rest)
    unfold jsSplitDotAux
    rw [if_neg hc, ih _ (fun hm => h (List.mem_cons_of_mem c hm))]
    simp

theorem jsSplitDotAux_dot_split (l1 l2 acc : List Char) (h : '.' ∉ l1) :
    jsSplitDotAux (l1 ++ '.' :: l2) acc
      = String.mk (acc.reverse ++ l1) :: jsSplitDotAux l2 [] := by
  induction l1 generalizing acc with
  | nil =>
    simp only [List.nil_append, List.append_nil]
    conv_lhs => rw [jsSplitDotAux]
    rw [if_pos rfl]
  | cons c rest ih =>
    have hc : ¬ c = '.' := by
      intro hc
      exact h (by rw [← hc]; exact List.mem_cons_self c rest)
    simp only [List.cons_append]
    conv_lhs => rw [jsSplitDotAux]
    rw [if_neg hc, ih _ (fun hm => h (List.mem_cons_of_mem c hm))]
    simp

theorem string_mk_data (s : String) : String.mk s.data = s := rfl

theorem jsSplitDot_pair (a b : String) (ha : '.' ∉ a.data) (hb : '.' ∉ b.data) :
    jsSplitDot (a ++ "." ++ b) = [a, b] := by
  unfold jsSplitDot
  have hdata : (a ++ "." ++ b).data = a.data ++ '.' :: b.data := by
    rw [String.data_append, String.data_append]
    simp
  rw [hdata, jsSplitDotAux_dot_split _ _ _ ha, jsSplitDotAux_no_dot _ _ hb]
  simp [string_mk_data]

set_option maxRecDepth 4000 in
theorem byte_repr_parse : ∀ n : Nat, n < 256 →
    jsParseInt ((n : Int).repr) = some (n : Int) ∧ '.' ∉ ((n : Int).repr).data := by
  decide

theorem natcast_mod256_toNat (n : Nat) (h : n < 256) : (((n : Int)) % 256).toNat = n := by
  omega

theorem compileHeader_safe {m : IPPMessage} {maj minr : Nat} {c i : Int} {d : Bytes}
    (w : WFMessage m maj minr c i d) :
    IPPEncode.compileHeader m = .ok (headerBytes maj minr c i) := by
  have hm1 := w.hmaj1
  have hm2 := w.hmaj2
  have hmn := w.hmin
  have hpm := byte_repr_parse maj (by omega)
  have hpn := byte_repr_parse minr (by omega)
  unfold IPPEncode.compileHeader
  rw [w.hver]
  unfold versionString
  rw [jsSplitDot_pair _ _ hpm.2 hpn.2]
  simp only [List.get?, Option.bind, hpm.1, hpn.1]
  have hcheck : ¬ (([(maj : Int).repr, (minr : Int).repr].length ≠ 2
      ∨ (maj : Int) < 1 ∨ (maj : Int) > 255 ∨ (minr : Int) < 0 ∨ (minr : Int) > 255)) := by
    push_neg
    refine ⟨rfl, by exact_mod_cast hm1, by omega, by omega, by omega⟩
  rw [if_neg hcheck]
  simp only [JSBuf.wInt8, JSBuf.wInt16BE, JSBuf.wInt32BE]
  rw [if_pos (show -128 ≤ (maj : Int) ∧ (maj : Int) ≤ 127 by constructor <;> omega),
    if_pos (show -128 ≤ (minr : Int) ∧ (minr : Int) ≤ 127 by constructor <;> omega)]
  rw [w.hcode, w.hid]
  rw [natcast_mod256_toNat maj (by omega), natcast_mod256_toNat minr (by omega)]
  simp [w.hi0, w.hi1, w.hi2, w.hc1, w.hc2, headerBytes, Except.bind, bind]

theorem encodeMessage_safe {m : IPPMessage} {maj minr : Nat} {c i : Int} {d : Bytes}
    (w : WFMessage m maj minr c i d) :
    IPPEncode.encodeMessage m
      = .ok (headerBytes maj minr c i ++ groupsBytes m.attributes ++ d) := by
  unfold IPPEncode.encodeMessage
  rw [compileHeader_safe w,
    compileAttributeGroups_safe w.hop.2 w.hpr.2 w.hjob.2 w.huns.2]
  unfold IPPEncode.compileData
  rw [w.hdata]
  simp [Except.bind, bind]

/-! ## Reading back what was written: decode-side lemmas -/

namespace JSBuf

theorem readUInt8_of_drop {data suffix : Bytes} {pos : Nat} (hd : data.drop pos = suffix)
    (k : Nat) : readUInt8 data (pos + k) = readUInt8 suffix k :=
  byteAt_of_drop hd k

theorem readInt8_of_drop {data suffix : Bytes} {pos : Nat} (hd : data.drop pos = suffix)
    (k : Nat) : readInt8 data (pos + k) = readInt8 suffix k := by
  unfold readInt8
  rw [byteAt_of_drop hd k]

theorem readUInt16BE_of_drop {data suffix : Bytes} {pos : Nat} (hd : data.drop pos = suffix)
    (k : Nat) : readUInt16BE data (pos + k) = readUInt16BE suffix k := by
  unfold readUInt16BE
  rw [byteAt_of_drop hd k, show pos + k + 1 = pos + (k + 1) by omega, byteAt_of_drop hd (k + 1)]

theorem readInt16BE_of_drop {data suffix : Bytes} {pos : Nat} (hd : data.drop pos = suffix)
    (k : Nat) : readInt16BE data (pos + k) = readInt16BE suffix k := by
  unfold readInt16BE
  rw [readUInt16BE_of_drop hd k]

theorem readUInt32BE_of_drop {data suffix : Bytes} {pos : Nat} (hd : data.drop pos = suffix)
    (k : Nat) : readUInt32BE data (pos + k) = readUInt32BE suffix k := by
  unfold readUInt32BE
  rw [byteAt_of_drop hd k, show pos + k + 1 = pos + (k + 1) by omega, byteAt_of_drop hd (k + 1),
    show pos + k + 2 = pos + (k + 2) by omega, byteAt_of_drop hd (k + 2),
    show pos + k + 3 = pos + (k + 3) by omega, byteAt_of_drop hd (k + 3)]

theorem readInt32BE_of_drop {data suffix : Bytes} {pos : Nat} (hd : data.drop pos = suffix)
    (k : Nat) : readInt32BE data (pos + k) = readInt32BE suffix k := by
  unfold readInt32BE
  rw [readUInt32BE_of_drop hd k]

theorem readInt8_of_drop0 {data suffix : Bytes} {pos : Nat} (hd : data.drop pos = suffix) :
    readInt8 data pos = readInt8 suffix 0 := by
  have h := readInt8_of_drop hd 0
  rwa [Nat.add_zero] at h

theorem readUInt8_of_drop0 {data suffix : Bytes} {pos : Nat} (hd : data.drop pos = suffix) :
    readUInt8 data pos = readUInt8 suffix 0 := by
  have h := readUInt8_of_drop hd 0
  rwa [Nat.add_zero] at h

theorem readInt16BE_of_drop0 {data suffix : Bytes} {pos : Nat} (hd : data.drop pos = suffix) :
    readInt16BE data pos = readInt16BE suffix 0 := by
  have h := readInt16BE_of_drop hd 0
  rwa [Nat.add_zero] at h

theorem readInt32BE_of_drop0 {data suffix : Bytes} {pos : Nat} (hd : data.drop pos = suffix) :
    readInt32BE data pos = readInt32BE suffix 0 := by
  have h := readInt32BE_of_drop hd 0
  rwa [Nat.add_zero] at h

end JSBuf

/-- The length of the data equals the position plus the remaining suffix,
whenever a drop equation with a non-empty suffix is known. -/
theorem length_of_drop {data suffix : Bytes} {pos : Nat} (hd : data.drop pos = suffix)
    (hne : suffix ≠ []) : data.length = pos + suffix.length := by
  have h1 : (data.drop pos).length = data.length - pos := List.length_drop pos data
  rw [hd] at h1
  by_cases hle : pos ≤ data.length
  · omega
  · exfalso
    have h2 : data.drop pos = [] := List.drop_eq_nil_of_le (by omega)
    rw [hd] at h2
    exact hne h2

theorem recBytes_length (tb : Nat) (name : String) (payload : Bytes) :
    (recBytes tb name payload).length = 5 + name.length + payload.length := by
  unfold recBytes
  simp [JSBuf.int16BE, length_asciiEncode]
  omega

theorem valueRec_length (name : String) (v : Value) :
    (valueRec name v).length = 5 + name.length + (payloadOf v).length := by
  unfold valueRec
  exact recBytes_length _ _ _

/-- The attribute loop stops cleanly (without consuming the byte) when the
next byte is an attribute-group tag below `0x10`. -/
theorem parseAttributesLoop_stop {data : Bytes} {pos : Nat} {b : Nat} {rest2 : Bytes}
    (hd : data.drop pos = b :: rest2) (hb : b < 0x10) (fuel : Nat) (pool : Pool)
    (st : Option String) :
    IPPParse.parseAttributesLoop data pos (fuel + 1) pool st = .ok (pos, pool) := by
  have hlen := length_of_drop hd (by simp)
  simp only [List.length_cons] at hlen
  have hread : JSBuf.readInt8 data pos = (b : Int) := by
    rw [JSBuf.readInt8_of_drop0 hd]
    unfold JSBuf.readInt8 JSBuf.byteAt
    simp only [List.drop_zero, List.headD_cons]
    rw [if_neg (by omega)]
  unfold IPPParse.parseAttributesLoop
  rw [if_pos (by omega), hread]
  rw [if_neg (by omega), if_pos (by exact_mod_cast hb)]

theorem poolInsert_fresh {pool : Pool} {name : String} (v : Value)
    (h : pool.any (fun e => e.1 = name) = false) :
    poolInsert pool name v = .ok (pool ++ [(name, PoolVal.arr [v])]) := by
  unfold poolInsert
  rw [if_neg (by simp [h])]

theorem poolUpdate_push {P : Pool} {name : String} {vs : List Value} (v : Value)
    (h : P.any (fun e => e.1 = name) = false) :
    poolUpdate name v (P ++ [(name, PoolVal.arr vs)])
      = .ok (P ++ [(name, PoolVal.arr (vs ++ [v]))]) := by
  induction P with
  | nil =>
    simp only [List.nil_append]
    unfold poolUpdate
    rw [if_pos rfl]
    rfl
  | cons e rest ih =>
    simp only [List.any_cons, Bool.or_eq_false_iff] at h
    simp only [List.cons_append]
    unfold poolUpdate
    rw [if_neg (by simpa using h.1), ih h.2]
    rfl

theorem poolInsert_push {P : Pool} {name : String} {vs : List Value} (v : Value)
    (h : P.any (fun e => e.1 = name) = false) :
    poolInsert (P ++ [(name, PoolVal.arr vs)]) name v
      = .ok (P ++ [(name, PoolVal.arr (vs ++ [v]))]) := by
  unfold poolInsert
  rw [if_pos (by simp), poolUpdate_push v h]

theorem toStringAscii_of_drop {data : Bytes} {pos : Nat} {name : String} {tail : Bytes}
    (hd : data.drop pos = JSBuf.asciiEncode name ++ tail) (hname : AsciiString name) :
    JSBuf.toStringAscii data pos (pos + name.length) = name := by
  unfold JSBuf.toStringAscii
  rw [hd, Nat.add_sub_cancel_left]
  rw [show name.length = (JSBuf.asciiEncode name).length from (length_asciiEncode name).symm,
    List.take_left]
  rw [asciiEncode_ascii hname]
  rw [List.map_map]
  have hmap : ∀ c ∈ name.data, (fun b => Char.ofNat (b % 128)) (Char.toNat c) = c := by
    intro c hc
    have hlt := hname c hc
    simp only [Function.comp]
    rw [Nat.mod_eq_of_lt hlt, Char.ofNat_toNat]
  calc String.mk (name.data.map ((fun b => Char.ofNat (b % 128)) ∘ Char.toNat))
      = String.mk name.data := by
        congr 1
        calc name.data.map ((fun b => Char.ofNat (b % 128)) ∘ Char.toNat)
            = name.data.map (fun a => a) := List.map_congr_left hmap
          _ = name.data := List.map_id' name.data
    _ = name := rfl

theorem utf8DecodeLoop_ascii (l : List Char) :
    ∀ (fuel : Nat), (∀ c ∈ l, c.toNat < 128) → l.length ≤ fuel →
      JSBuf.utf8DecodeLoop fuel (l.map Char.toNat) = l := by
  induction l with
  | nil =>
    intro fuel hlt hfuel
    cases fuel <;> rfl
  | cons c rest ih =>
    intro fuel hlt hfuel
    obtain ⟨f, rfl⟩ : ∃ f, fuel = f + 1 := ⟨fuel - 1, by simp at hfuel; omega⟩
    have hc := hlt c (List.mem_cons_self c rest)
    simp only [List.map_cons]
    unfold JSBuf.utf8DecodeLoop
    rw [if_pos hc, Char.ofNat_toNat,
      ih f (fun x hx => hlt x (List.mem_cons_of_mem c hx)) (by simp at hfuel; omega)]

theorem utf8Decode_encode_ascii {s : String} (h : AsciiString s) :
    JSBuf.utf8Decode (JSBuf.utf8Encode s) = s := by
  unfold JSBuf.utf8Decode
  rw [utf8Encode_ascii h]
  rw [utf8DecodeLoop_ascii s.data _ h (by simp)]

theorem toStringUtf8_of_drop {data : Bytes} {pos : Nat} {s : String} {tail : Bytes}
    (hd : data.drop pos = JSBuf.utf8Encode s ++ tail) (hs : AsciiString s) :
    JSBuf.toStringUtf8 data pos ((pos : Int) + (s.length : Int)) = s := by
  unfold JSBuf.toStringUtf8
  by_cases hz : s.length = 0
  · rw [if_pos (by omega)]
    have : s.data = [] := by
      have : s.data.length = 0 := hz
      exact List.length_eq_zero.mp this
    cases s
    simp at this
    rw [this]
  · rw [if_neg (by omega)]
    have harith : ((pos : Int) + (s.length : Int)).toNat - pos = s.length := by omega
    rw [harith, hd]
    rw [show s.length = (JSBuf.utf8Encode s).length from (length_utf8Encode_ascii hs).symm,
      List.take_left]
    exact utf8Decode_encode_ascii hs

theorem decodeUtf8String_safe {t : Int} {s : String} {data : Bytes} {pos : Nat} {rest : Bytes}
    (hd : data.drop pos = JSBuf.utf8Encode s ++ rest) (hs : AsciiString s) :
    Decoders.decodeUtf8String data pos ((JSBuf.utf8Encode s).length : Int) t
      = .ok (.typeNative t (.str s)) := by
  unfold Decoders.decodeUtf8String
  rw [length_utf8Encode_ascii hs, toStringUtf8_of_drop hd hs]

theorem decodeAsciiString_safe {t : Int} {s : String} {data : Bytes} {pos : Nat} {rest : Bytes}
    (hd : data.drop pos = JSBuf.utf8Encode s ++ rest) (hs : AsciiString s) :
    Decoders.decodeAsciiString data pos ((JSBuf.utf8Encode s).length : Int) t
      = .ok (.typeNative t (.str s)) := by
  unfold Decoders.decodeAsciiString
  have hd2 : data.drop pos = JSBuf.asciiEncode s ++ rest := by
    rw [hd, utf8Encode_ascii hs, asciiEncode_ascii hs]
  rw [length_utf8Encode_ascii hs]
  rw [show ((s.length : Nat) : Int).toNat = s.length by omega]
  rw [toStringAscii_of_drop hd2 hs]

theorem decodeValue_safe {v : Value} (hv : SafeValue v) {data : Bytes} {pos : Nat}
    {rest : Bytes} (hd : data.drop pos = payloadOf v ++ rest) :
    ∃ f, Decoders.table v.type = some f
      ∧ f data pos (((payloadOf v).length : Nat) : Int) v.type = .ok v := by
  cases v with
  | typeNative t jsv =>
    cases jsv with
    | int n =>
      simp only [SafeValue] at hv
      obtain ⟨ht, h1, h2⟩ := hv
      simp only [payloadOf] at hd ⊢
      rw [JSBuf.length_int32BE]
      have hread : JSBuf.readInt32BE data pos = n := by
        rw [JSBuf.readInt32BE_of_drop0 hd, JSBuf.readInt32BE_int32BE n rest h1 (by omega)]
      rcases ht with ht | ht <;> subst ht <;>
        exact ⟨Decoders.decodeInteger, rfl, by
          unfold Decoders.decodeInteger
          rw [if_neg (by norm_num), hread]
          simp [Value.type]⟩
    | bool b =>
      simp only [SafeValue] at hv
      subst hv
      simp only [payloadOf] at hd ⊢
      have hread : JSBuf.readInt8 data pos = (if b then (1 : Int) else 0) := by
        rw [JSBuf.readInt8_of_drop0 hd]
        unfold JSBuf.readInt8 JSBuf.byteAt
        cases b <;> simp
      refine ⟨Decoders.decodeBoolean, rfl, ?_⟩
      unfold Decoders.decodeBoolean
      rw [if_neg (by cases b <;> norm_num), hread]
      cases b <;> simp [Value.type]
    | str s =>
      simp only [SafeValue] at hv
      obtain ⟨ht, hs, hl⟩ := hv
      simp only [payloadOf] at hd ⊢
      simp only [strTags, List.mem_cons, List.not_mem_nil, or_false] at ht
      rcases ht with ht | ht | ht | ht | ht | ht | ht | ht <;> subst ht
      · exact ⟨Decoders.decodeUtf8String, rfl, decodeUtf8String_safe hd hs⟩
      · exact ⟨Decoders.decodeUtf8String, rfl, decodeUtf8String_safe hd hs⟩
      · exact ⟨Decoders.decodeAsciiString, rfl, decodeAsciiString_safe hd hs⟩
      · exact ⟨Decoders.decodeAsciiString, rfl, decodeAsciiString_safe hd hs⟩
      · exact ⟨Decoders.decodeAsciiString, rfl, decodeAsciiString_safe hd hs⟩
      · exact ⟨Decoders.decodeAsciiString, rfl, decodeAsciiString_safe hd hs⟩
      · exact ⟨Decoders.decodeAsciiString, rfl, decodeAsciiString_safe hd hs⟩
      · exact ⟨Decoders.decodeAsciiString, rfl, decodeAsciiString_safe hd hs⟩
    | buf b => simp only [SafeValue] at hv
    | date d => simp only [SafeValue] at hv
  | typeDefault => exact ⟨_, rfl, rfl⟩
  | typeUnknown => exact ⟨_, rfl, rfl⟩
  | typeNoValue => exact ⟨_, rfl, rfl⟩
  | typeResolution x y u =>
    simp only [SafeValue] at hv
    obtain ⟨⟨hx1, hx2⟩, ⟨hy1, hy2⟩, hu⟩ := hv
    simp only [payloadOf] at hd ⊢
    have hlen : ((JSBuf.int32BE x ++ JSBuf.int32BE y ++ [u.toNat]).length : Int) = (9 : Int) := by
      simp [JSBuf.int32BE]
    rw [hlen]
    have hdx : data.drop pos = JSBuf.int32BE x ++ (JSBuf.int32BE y ++ [u.toNat] ++ rest) := by
      rw [hd]; simp
    have hdy : data.drop (pos + 4) = JSBuf.int32BE y ++ ([u.toNat] ++ rest) := by
      have := JSBuf.drop_advance hdx rfl
      rw [JSBuf.length_int32BE] at this
      rw [this]; simp
    have hdu : data.drop (pos + 8) = [u.toNat] ++ rest := by
      have := JSBuf.drop_advance hdy rfl
      rw [JSBuf.length_int32BE] at this
      rw [show pos + 8 = pos + 4 + 4 by omega, this]
    have hru : JSBuf.readInt8 data (pos + 8) = u := by
      rw [JSBuf.readInt8_of_drop0 hdu]
      unfold JSBuf.readInt8 JSBuf.byteAt
      rcases hu with hu | hu <;> subst hu <;> simp
    refine ⟨Decoders.decodeResolution, rfl, ?_⟩
    unfold Decoders.decodeResolution
    rw [if_neg (by norm_num)]
    rw [JSBuf.readInt32BE_of_drop0 hdx, JSBuf.readInt32BE_int32BE x _ hx1 (by omega),
      JSBuf.readInt32BE_of_drop0 hdy, JSBuf.readInt32BE_int32BE y _ hy1 (by omega), hru]
    unfold Value.mkResolution
    rw [if_neg (by rcases hu with hu | hu <;> subst hu <;> simp)]
  | typeRange l u => simp only [SafeValue] at hv
  | typeStringWithLanguage t s l => simp only [SafeValue] at hv

theorem parseAttributesLoop_step_named {data : Bytes} {pos : Nat} {v : Value} {name : String}
    {rest : Bytes} {pool pool2 : Pool} {st : Option String} {fuel : Nat}
    (hv : SafeValue v) (hname : SafeName name)
    (hrec : data.drop pos = valueRec name v ++ rest)
    (hins : poolInsert pool name v = .ok pool2) :
    IPPParse.parseAttributesLoop data pos (fuel + 1) pool st
      = IPPParse.parseAttributesLoop data (pos + (valueRec name v).length) fuel pool2 (some name) := by
  obtain ⟨hascii, hnz, hnle⟩ := hname
  obtain ⟨htag1, htag2⟩ := tag_range hv
  have hplen := payload_len_le hv
  have hd0 : data.drop pos = tagByteOf v :: (JSBuf.int16BE (name.length : Int)
      ++ (JSBuf.asciiEncode name ++ (JSBuf.int16BE ((payloadOf v).length : Int)
      ++ (payloadOf v ++ rest)))) := by
    rw [hrec]
    unfold valueRec recBytes
    simp
  have hlen := length_of_drop hd0 (by simp)
  have hlen0 : data.length
      = pos + (5 + name.length + (payloadOf v).length + rest.length) := by
    simp [JSBuf.int16BE, length_asciiEncode] at hlen
    omega
  have hreadtag : JSBuf.readInt8 data pos = v.type := by
    rw [JSBuf.readInt8_of_drop0 hd0]
    unfold JSBuf.readInt8 JSBuf.byteAt
    simp only [List.drop_zero, List.headD_cons]
    rw [if_neg (by unfold tagByteOf; omega)]
    unfold tagByteOf
    omega
  have hd1 : data.drop (pos + 1) = JSBuf.int16BE (name.length : Int)
      ++ (JSBuf.asciiEncode name ++ (JSBuf.int16BE ((payloadOf v).length : Int)
      ++ (payloadOf v ++ rest))) := by
    have h := JSBuf.drop_advance hd0 List.singleton_append.symm
    simpa using h
  have hreadnl : JSBuf.readInt16BE data (pos + 1) = (name.length : Int) := by
    rw [JSBuf.readInt16BE_of_drop0 hd1,
      JSBuf.readInt16BE_int16BE _ _ (by omega) (by omega)]
  have hd3 : data.drop (pos + 1 + 2) = JSBuf.asciiEncode name
      ++ (JSBuf.int16BE ((payloadOf v).length : Int) ++ (payloadOf v ++ rest)) := by
    have h := JSBuf.drop_advance hd1 rfl
    rwa [JSBuf.length_int16BE] at h
  have hnamestr : JSBuf.toStringAscii data (pos + 1 + 2) (pos + 1 + 2 + name.length)
      = name := toStringAscii_of_drop hd3 hascii
  have hd5 : data.drop (pos + 1 + 2 + name.length)
      = JSBuf.int16BE ((payloadOf v).length : Int) ++ (payloadOf v ++ rest) := by
    have h := JSBuf.drop_advance hd3 rfl
    rwa [length_asciiEncode] at h
  have hreadvl : JSBuf.readInt16BE data (pos + 1 + 2 + name.length)
      = ((payloadOf v).length : Int) := by
    rw [JSBuf.readInt16BE_of_drop0 hd5,
      JSBuf.readInt16BE_int16BE _ _ (by omega) (by omega)]
  have hd7 : data.drop (pos + 1 + 2 + name.length + 2) = payloadOf v ++ rest := by
    have h := JSBuf.drop_advance hd5 rfl
    rwa [JSBuf.length_int16BE] at h
  obtain ⟨f, hf, hfv⟩ := decodeValue_safe hv hd7
  have hrlen : (valueRec name v).length = 5 + name.length + (payloadOf v).length :=
    valueRec_length name v
  simp only [IPPParse.parseAttributesLoop, hreadtag, hreadnl, hreadvl]
  rw [if_pos (by omega : pos < data.length)]
  rw [if_neg (by omega : ¬ v.type < 0), if_neg (by omega : ¬ v.type < 0x10)]
  rw [if_neg (by omega : ¬ pos + 1 + 2 > data.length)]
  rw [if_neg (by omega : ¬ (name.length : Int) < 0)]
  rw [if_pos (by omega : (name.length : Int) > 0)]
  rw [show ((name.length : Nat) : Int).toNat = name.length from by omega]
  rw [if_neg (by omega : ¬ pos + 1 + 2 + name.length > data.length)]
  rw [hnamestr]
  simp only []
  rw [if_neg (by omega : ¬ pos + 1 + 2 + name.length + 2 > data.length)]
  simp only [hreadvl]
  rw [if_neg (by
    rintro ⟨h1, h2⟩
    omega : ¬ (((payloadOf v).length : Int) > 0
      ∧ ((pos + 1 + 2 + name.length + 2 : Nat) : Int) + ((payloadOf v).length : Int)
        > (data.length : Int)))]
  rw [if_neg (by omega : ¬ v.type = 0x7f)]
  simp only [hf, hfv, hins]
  rw [if_neg (by omega : ¬ ((pos + 1 + 2 + name.length + 2 : Nat) : Int)
    + ((payloadOf v).length : Int) < 0)]
  rw [show (((pos + 1 + 2 + name.length + 2 : Nat) : Int)
    + ((payloadOf v).length : Int)).toNat = pos + (valueRec name v).length from by
      rw [hrlen]; omega]

theorem parseAttributesLoop_step_cont {data : Bytes} {pos : Nat} {v : Value} {name : String}
    {rest : Bytes} {pool pool2 : Pool} {fuel : Nat}
    (hv : SafeValue v)
    (hrec : data.drop pos = valueRec "" v ++ rest)
    (hins : poolInsert pool name v = .ok pool2) :
    IPPParse.parseAttributesLoop data pos (fuel + 1) pool (some name)
      = IPPParse.parseAttributesLoop data (pos + (valueRec "" v).length) fuel pool2
          (some name) := by
  obtain ⟨htag1, htag2⟩ := tag_range hv
  have hplen := payload_len_le hv
  have hd0 : data.drop pos = tagByteOf v :: (JSBuf.int16BE ((0 : Nat) : Int)
      ++ (JSBuf.int16BE ((payloadOf v).length : Int) ++ (payloadOf v ++ rest))) := by
    rw [hrec]
    unfold valueRec recBytes
    simp [JSBuf.asciiEncode]
  have hlen := length_of_drop hd0 (by simp)
  have hlen0 : data.length = pos + (5 + (payloadOf v).length + rest.length) := by
    simp [JSBuf.int16BE] at hlen
    omega
  have hreadtag : JSBuf.readInt8 data pos = v.type := by
    rw [JSBuf.readInt8_of_drop0 hd0]
    unfold JSBuf.readInt8 JSBuf.byteAt
    simp only [List.drop_zero, List.headD_cons]
    rw [if_neg (by unfold tagByteOf; omega)]
    unfold tagByteOf
    omega
  have hd1 : data.drop (pos + 1) = JSBuf.int16BE ((0 : Nat) : Int)
      ++ (JSBuf.int16BE ((payloadOf v).length : Int) ++ (payloadOf v ++ rest)) := by
    have h := JSBuf.drop_advance hd0 List.singleton_append.symm
    simpa using h
  have hreadnl : JSBuf.readInt16BE data (pos + 1) = ((0 : Nat) : Int) := by
    rw [JSBuf.readInt16BE_of_drop0 hd1,
      JSBuf.readInt16BE_int16BE _ _ (by omega) (by omega)]
  have hd5 : data.drop (pos + 1 + 2)
      = JSBuf.int16BE ((payloadOf v).length : Int) ++ (payloadOf v ++ rest) := by
    have h := JSBuf.drop_advance hd1 rfl
    rwa [JSBuf.length_int16BE] at h
  have hreadvl : JSBuf.readInt16BE data (pos + 1 + 2) = ((payloadOf v).length : Int) := by
    rw [JSBuf.readInt16BE_of_drop0 hd5,
      JSBuf.readInt16BE_int16BE _ _ (by omega) (by omega)]
  have hd7 : data.drop (pos + 1 + 2 + 2) = payloadOf v ++ rest := by
    have h := JSBuf.drop_advance hd5 rfl
    rwa [JSBuf.length_int16BE] at h
  obtain ⟨f, hf, hfv⟩ := decodeValue_safe hv hd7
  have hrlen : (valueRec "" v).length = 5 + (payloadOf v).length := by
    rw [valueRec_length]
    rfl
  simp only [IPPParse.parseAttributesLoop, hreadtag, hreadnl]
  rw [if_pos (by omega : pos < data.length)]
  rw [if_neg (by omega : ¬ v.type < 0), if_neg (by omega : ¬ v.type < 0x10)]
  rw [if_neg (by omega : ¬ pos + 1 + 2 > data.length)]
  rw [if_neg (by omega : ¬ ((0 : Nat) : Int) < 0)]
  rw [if_neg (by omega : ¬ ((0 : Nat) : Int) > 0)]
  simp only []
  rw [if_neg (by omega : ¬ pos + 1 + 2 + 2 > data.length)]
  simp only [hreadvl]
  rw [if_neg (by
    rintro ⟨h1, h2⟩
    omega : ¬ (((payloadOf v).length : Int) > 0
      ∧ ((pos + 1 + 2 + 2 : Nat) : Int) + ((payloadOf v).length : Int)
        > (data.length : Int)))]
  rw [if_neg (by omega : ¬ v.type = 0x7f)]
  simp only [hf, hfv, hins]
  rw [if_neg (by omega : ¬ ((pos + 1 + 2 + 2 : Nat) : Int)
    + ((payloadOf v).length : Int) < 0)]
  rw [show (((pos + 1 + 2 + 2 : Nat) : Int)
    + ((payloadOf v).length : Int)).toNat = pos + (valueRec "" v).length from by
      rw [hrlen]; omega]

/-- The byte count of the continuation records of a value list. -/
def contBytes (vs : List Value) : Bytes := (vs.map (valueRec "")).flatten

/-- Total number of wire records a pool produces (one per value). -/
def recCount (pool : Pool) : Nat :=
  (pool.map (fun e => (IPPEncode.normalizeValues e.2).length)).sum

/-- What the decoder reconstructs from an encoded pool: every entry becomes
an array entry. -/
def decodedPool (pool : Pool) : Pool :=
  pool.map (fun e => (e.1, PoolVal.arr (IPPEncode.normalizeValues e.2)))

theorem parseAttrs_continuations :
    ∀ (vs : List Value) (data : Bytes) (pos : Nat) (P : Pool) (name : String)
      (accvs : List Value) (tail : Bytes) (fuelA : Nat),
      data.drop pos = contBytes vs ++ tail →
      (∀ v ∈ vs, SafeValue v) →
      P.any (fun e => e.1 = name) = false →
      IPPParse.parseAttributesLoop data pos (fuelA + vs.length)
          (P ++ [(name, PoolVal.arr accvs)]) (some name)
        = IPPParse.parseAttributesLoop data (pos + (contBytes vs).length) fuelA
            (P ++ [(name, PoolVal.arr (accvs ++ vs))]) (some name) := by
  intro vs
  induction vs with
  | nil =>
    intro data pos P name accvs tail fuelA hd hsafe hfresh
    simp [contBytes]
  | cons w ws ih =>
    intro data pos P name accvs tail fuelA hd hsafe hfresh
    have hdw : data.drop pos = valueRec "" w ++ (contBytes ws ++ tail) := by
      rw [hd]
      simp [contBytes]
    have hins := @poolInsert_push P name accvs w hfresh
    have hstep := @parseAttributesLoop_step_cont data pos w name _
      (P ++ [(name, PoolVal.arr accvs)]) _ (fuelA + ws.length)
      (hsafe w (List.mem_cons_self w ws)) hdw hins
    rw [show fuelA + (w :: ws).length = fuelA + ws.length + 1 from by simp; omega]
    rw [hstep]
    have hd2 : data.drop (pos + (valueRec "" w).length) = contBytes ws ++ tail :=
      JSBuf.drop_advance hdw rfl
    rw [ih data _ P name (accvs ++ [w]) tail fuelA hd2
      (fun x hx => hsafe x (List.mem_cons_of_mem w hx)) hfresh]
    have harr : (accvs ++ [w]) ++ ws = accvs ++ w :: ws := by simp
    rw [harr]
    have hlen2 : pos + (valueRec "" w).length + (contBytes ws).length
        = pos + (contBytes (w :: ws)).length := by
      simp [contBytes]
      omega
    rw [hlen2]

theorem parseAttrs_encoded :
    ∀ (entries : Pool) (data : Bytes) (pos : Nat) (acc : Pool) (st : Option String)
      (b : Nat) (rest2 : Bytes) (fuelB : Nat),
      data.drop pos = poolBytes entries ++ b :: rest2 →
      b < 0x10 →
      (∀ e ∈ entries, WFEntry e) →
      (entries.map Prod.fst).Nodup →
      (∀ e ∈ entries, acc.any (fun a => a.1 = e.1) = false) →
      recCount entries < fuelB →
      IPPParse.parseAttributesLoop data pos fuelB acc st
        = .ok (pos + (poolBytes entries).length, acc ++ decodedPool entries) := by
  intro entries
  induction entries with
  | nil =>
    intro data pos acc st b rest2 fuelB hd hb hwf hnodup hfresh hfuel
    obtain ⟨f, rfl⟩ : ∃ f, fuelB = f + 1 := ⟨fuelB - 1, by omega⟩
    have hd2 : data.drop pos = b :: rest2 := by simpa [poolBytes] using hd
    rw [parseAttributesLoop_stop hd2 hb f acc st]
    simp [poolBytes, decodedPool]
  | cons e es ih =>
    intro data pos acc st b rest2 fuelB hd hb hwf hnodup hfresh hfuel
    obtain ⟨name, pv⟩ := e
    have hwfe := hwf _ (List.mem_cons_self _ es)
    unfold WFEntry at hwfe
    obtain ⟨hname, harr⟩ := hwfe
    obtain ⟨vs, hpv⟩ : ∃ vs, pv = PoolVal.arr vs := by
      cases pv with
      | arr vs => exact ⟨vs, rfl⟩
      | single w => exact absurd harr (by simp)
    subst hpv
    simp only at harr
    obtain ⟨hvne, hvsafe⟩ := harr
    obtain ⟨v, vtail, rfl⟩ : ∃ v vtail, vs = v :: vtail := by
      cases vs with
      | nil => exact absurd rfl hvne
      | cons v vtail => exact ⟨v, vtail, rfl⟩
    have hacc0 : acc.any (fun a => a.1 = name) = false := hfresh _ (List.mem_cons_self _ es)
    have hrc : recCount ((name, PoolVal.arr (v :: vtail)) :: es)
        = 1 + vtail.length + recCount es := by
      simp [recCount, IPPEncode.normalizeValues]
      omega
    have hdw : data.drop pos = valueRec name v
        ++ (contBytes vtail ++ (poolBytes es ++ b :: rest2)) := by
      rw [hd]
      simp [poolBytes, attrBytes, contBytes, IPPEncode.normalizeValues]
    have hins := @poolInsert_fresh acc name v hacc0
    rw [show fuelB = (fuelB - 1 - vtail.length) + vtail.length + 1 from by omega]
    rw [@parseAttributesLoop_step_named data pos v name _ _ _ _
      (fuelB - 1 - vtail.length + vtail.length)
      (hvsafe v (List.mem_cons_self v vtail)) hname hdw hins]
    have hd2 : data.drop (pos + (valueRec name v).length)
        = contBytes vtail ++ (poolBytes es ++ b :: rest2) := JSBuf.drop_advance hdw rfl
    rw [parseAttrs_continuations vtail data _ acc name [v] _ _ hd2
      (fun x hx => hvsafe x (List.mem_cons_of_mem v hx)) hacc0]
    have hd3 : data.drop (pos + (valueRec name v).length + (contBytes vtail).length)
        = poolBytes es ++ b :: rest2 := JSBuf.drop_advance hd2 rfl
    have hfresh2 : ∀ e2 ∈ es, (acc ++ [(name, PoolVal.arr ([v] ++ vtail))]).any
        (fun a => a.1 = e2.1) = false := by
      intro e2 he2
      have h1 : acc.any (fun a => a.1 = e2.1) = false :=
        hfresh _ (List.mem_cons_of_mem _ he2)
      have h2 : name ≠ e2.1 := by
        have := hnodup
        simp only [List.map_cons, List.nodup_cons] at this
        intro heq
        exact this.1 (heq ▸ List.mem_map_of_mem Prod.fst he2)
      simp [List.any_append, h1, h2]
    rw [ih data _ (acc ++ [(name, PoolVal.arr ([v] ++ vtail))]) (some name) b rest2 _ hd3 hb
      (fun x hx => hwf x (List.mem_cons_of_mem _ hx))
      (by simpa using hnodup.of_cons) hfresh2 (by omega)]
    have hplen : (poolBytes ((name, PoolVal.arr (v :: vtail)) :: es)).length
        = (valueRec name v).length + (contBytes vtail).length + (poolBytes es).length := by
      simp [poolBytes, attrBytes, contBytes, IPPEncode.normalizeValues]
      omega
    have hdp : decodedPool ((name, PoolVal.arr (v :: vtail)) :: es)
        = (name, PoolVal.arr (v :: vtail)) :: decodedPool es := by
      simp [decodedPool, IPPEncode.normalizeValues]
    rw [hdp, hplen]
    simp only [Except.ok.injEq, Prod.mk.injEq]
    constructor
    · omega
    · simp

theorem contBytes_ge (vs : List Value) : vs.length ≤ (contBytes vs).length := by
  induction vs with
  | nil => simp [contBytes]
  | cons v rest ih =>
    simp only [contBytes, List.map_cons, List.flatten_cons, List.length_append,
      List.length_cons]
    have h5 : (valueRec "" v).length = 5 + (payloadOf v).length := by
      rw [valueRec_length]
      rfl
    simp only [contBytes] at ih
    omega

theorem recCount_le_poolBytes (pool : Pool) : recCount pool ≤ (poolBytes pool).length := by
  induction pool with
  | nil => simp [recCount, poolBytes]
  | cons e rest ih =>
    simp only [recCount, poolBytes, List.map_cons, List.sum_cons, List.flatten_cons,
      List.length_append] at ih ⊢
    have hattr : (IPPEncode.normalizeValues e.2).length
        ≤ (attrBytes e.1 (IPPEncode.normalizeValues e.2)).length := by
      cases hnv : IPPEncode.normalizeValues e.2 with
      | nil => simp [attrBytes]
      | cons v vtail =>
        simp only [attrBytes, List.length_append, List.length_cons]
        have h5 : (valueRec e.1 v).length = 5 + e.1.length + (payloadOf v).length :=
          valueRec_length _ _
        have hc := contBytes_ge vtail
        simp only [contBytes] at hc
        omega
    omega

theorem attributes_set_get_self (a : Attributes) (n : String) :
    a.set n (a.get n) = a := by
  unfold Attributes.set Attributes.get
  split_ifs <;> rfl

theorem attributes_get_set_ne (a : Attributes) (p : Pool) {n1 n2 : String} (h : n1 ≠ n2) :
    (a.set n1 p).get n2 = a.get n2 := by
  unfold Attributes.set Attributes.get
  split_ifs <;> simp_all

/-- The byte list of a run of group sections. -/
def secsBytes (secs : List (Nat × String × Pool)) : Bytes :=
  (secs.map (fun s => sectionBytes s.1 s.2.2)).flatten

/-- The attribute state after parsing a run of sections. -/
def applySecs (a : Attributes) : List (Nat × String × Pool) → Attributes
  | [] => a
  | s :: rest => applySecs (a.set s.2.1 (decodedPool s.2.2)) rest

theorem secsBytes_head (secs : List (Nat × String × Pool)) (body : Bytes)
    (hval : ∀ s ∈ secs, s.1 < 0x10) :
    ∃ b rest2, secsBytes secs ++ 3 :: body = b :: rest2 ∧ b < 0x10 := by
  induction secs with
  | nil => exact ⟨3, body, rfl, by norm_num⟩
  | cons s rest ih =>
    by_cases hne : s.2.2.length > 0
    · refine ⟨s.1, poolBytes s.2.2 ++ (secsBytes rest ++ 3 :: body), ?_,
        hval s (List.mem_cons_self s rest)⟩
      simp [secsBytes, sectionBytes, hne]
    · obtain ⟨b, rest2, heq, hb⟩ := ih (fun x hx => hval x (List.mem_cons_of_mem s hx))
      refine ⟨b, rest2, ?_, hb⟩
      simp only [secsBytes, List.map_cons, List.flatten_cons, sectionBytes, if_neg hne]
      simpa [secsBytes] using heq

theorem parseGroups_encoded :
    ∀ (secs : List (Nat × String × Pool)) (data : Bytes) (pos : Nat) (attrs : Attributes)
      (body : Bytes) (fuelG : Nat),
      data.drop pos = secsBytes secs ++ 3 :: body →
      (∀ s ∈ secs, attributeGroup ((s.1 : Nat) : Int) = some (some s.2.1) ∧ s.1 < 0x10
        ∧ (∀ e ∈ s.2.2, WFEntry e) ∧ (s.2.2.map Prod.fst).Nodup ∧ attrs.get s.2.1 = []) →
      ((secs.map (fun s => s.2.1)).Nodup) →
      secs.length < fuelG →
      IPPParse.parseGroupsLoop data pos fuelG attrs = .ok (applySecs attrs secs, body) := by
  intro secs
  induction secs with
  | nil =>
    intro data pos attrs body fuelG hd hconds hnodup hfuel
    obtain ⟨f, rfl⟩ : ∃ f, fuelG = f + 1 := ⟨fuelG - 1, by omega⟩
    have hd2 : data.drop pos = 3 :: body := by simpa [secsBytes] using hd
    have hlen := length_of_drop hd2 (by simp)
    have hread : JSBuf.readUInt8 data pos = 3 := by
      rw [JSBuf.readUInt8_of_drop0 hd2]
      rfl
    have hbody : JSBuf.jsSliceFrom data (pos + 1) = body :=
      JSBuf.drop_advance hd2 List.singleton_append.symm
    unfold IPPParse.parseGroupsLoop
    rw [if_pos (by simp at hlen; omega), hread]
    simp only [applySecs]
    rw [show ((3 : Nat) : Int) = (3 : Int) from rfl]
    simp only [attributeGroup]
    norm_num
    exact hbody
  | cons s rest ih =>
    intro data pos attrs body fuelG hd hconds hnodup hfuel
    obtain ⟨tag, name, pool⟩ := s
    obtain ⟨hlook, htag, hwfp, hnodupp, hget⟩ := hconds _ (List.mem_cons_self _ rest)
    dsimp only at hlook htag hwfp hnodupp hget
    by_cases hne : pool.length > 0
    · -- non-empty section: one group iteration, then the attribute loop
      obtain ⟨f, rfl⟩ : ∃ f, fuelG = f + 1 := ⟨fuelG - 1, by omega⟩
      obtain ⟨b, rest2, hhead, hb⟩ := secsBytes_head rest body
        (fun x hx => ((hconds x (List.mem_cons_of_mem _ hx)).2.1))
      have hd0 : data.drop pos = tag :: (poolBytes pool ++ (secsBytes rest ++ 3 :: body)) := by
        rw [hd]
        simp [secsBytes, sectionBytes, hne]
      have hlen := length_of_drop hd0 (by simp)
      have hread : JSBuf.readUInt8 data pos = tag := by
        rw [JSBuf.readUInt8_of_drop0 hd0]
        rfl
      have hd1 : data.drop (pos + 1) = poolBytes pool ++ (secsBytes rest ++ 3 :: body) :=
        JSBuf.drop_advance hd0 List.singleton_append.symm
      have hd1b : data.drop (pos + 1) = poolBytes pool ++ b :: rest2 := by
        rw [hd1, hhead]
      have hrc : recCount pool < data.length + 1 := by
        have h1 := recCount_le_poolBytes pool
        simp only [List.length_cons, List.length_append] at hlen
        omega
      have hattrs := parseAttrs_encoded pool data (pos + 1) [] none b rest2
        (data.length + 1) hd1b hb hwfp hnodupp (by simp) hrc
      simp only [IPPParse.parseGroupsLoop]
      rw [if_pos (by simp at hlen; omega), hread, hlook]
      dsimp only
      rw [hget, hattrs]
      simp only [List.nil_append]
      have hd2 : data.drop (pos + 1 + (poolBytes pool).length)
          = secsBytes rest ++ 3 :: body := JSBuf.drop_advance hd1 rfl
      have hconds2 : ∀ x ∈ rest, attributeGroup ((x.1 : Nat) : Int) = some (some x.2.1)
          ∧ x.1 < 0x10 ∧ (∀ e ∈ x.2.2, WFEntry e) ∧ (x.2.2.map Prod.fst).Nodup
          ∧ (attrs.set name (decodedPool pool)).get x.2.1 = [] := by
        intro x hx
        obtain ⟨h1, h2, h3, h4, h5⟩ := hconds x (List.mem_cons_of_mem _ hx)
        refine ⟨h1, h2, h3, h4, ?_⟩
        rw [attributes_get_set_ne _ _ ?_, h5]
        have hnn := hnodup
        simp only [List.map_cons, List.nodup_cons] at hnn
        intro heq
        exact hnn.1 (heq ▸ List.mem_map_of_mem (fun y => y.2.1) hx)
      rw [ih data _ (attrs.set name (decodedPool pool)) body f hd2 hconds2
        (by simpa using hnodup.of_cons) (by simp at hfuel; omega)]
      rfl
    · -- empty section: no bytes, no parser step
      have hd2 : data.drop pos = secsBytes rest ++ 3 :: body := by
        rw [hd]
        simp [secsBytes, sectionBytes, hne]
      have hempty : pool = [] := by
        cases pool with
        | nil => rfl
        | cons a b => simp at hne
      have hconds2 : ∀ x ∈ rest, attributeGroup ((x.1 : Nat) : Int) = some (some x.2.1)
          ∧ x.1 < 0x10 ∧ (∀ e ∈ x.2.2, WFEntry e) ∧ (x.2.2.map Prod.fst).Nodup
          ∧ attrs.get x.2.1 = [] :=
        fun x hx => hconds x (List.mem_cons_of_mem _ hx)
      rw [ih data pos attrs body fuelG hd2 hconds2 (by simpa using hnodup.of_cons)
        (by simp at hfuel; omega)]
      simp only [applySecs]
      have hset : attrs.set name (decodedPool pool) = attrs := by
        rw [hempty]
        rw [show decodedPool [] = ([] : Pool) from rfl, ← hget]
        exact attributes_set_get_self attrs name
      rw [hset]

theorem decodedPool_eq_of_WF {pool : Pool} (h : ∀ e ∈ pool, WFEntry e) :
    decodedPool pool = pool := by
  induction pool with
  | nil => rfl
  | cons e rest ih =>
    have he := h _ (List.mem_cons_self _ rest)
    unfold WFEntry at he
    obtain ⟨-, harr⟩ := he
    obtain ⟨n2, pv⟩ := e
    obtain ⟨vs, rfl⟩ : ∃ vs, pv = PoolVal.arr vs := by
      cases pv with
      | arr vs => exact ⟨vs, rfl⟩
      | single w => exact absurd harr (by simp)
    simp only [decodedPool, List.map_cons] at ih ⊢
    rw [ih (fun x hx => h x (List.mem_cons_of_mem _ hx))]
    rfl

theorem parse_of_encoded {m : IPPMessage} {maj minr : Nat} {c i : Int} {d : Bytes}
    (w : WFMessage m maj minr c i d) {B : Bytes}
    (hB : IPPEncode.encodeMessage m = .ok B) :
    IPPParse.parseMessage B = .ok m := by
  have henc := encodeMessage_safe w
  rw [hB] at henc
  have hBeq : B = headerBytes maj minr c i ++ groupsBytes m.attributes ++ d :=
    Except.ok.inj henc
  have hBshape : B = maj :: minr :: (JSBuf.int16BE c
      ++ (JSBuf.int32BE i ++ (groupsBytes m.attributes ++ d))) := by
    rw [hBeq]
    unfold headerBytes
    simp
  have hm1 := w.hmaj1
  have hm2 := w.hmaj2
  have hmn := w.hmin
  have hlenB : B.length = 8 + (groupsBytes m.attributes).length + d.length := by
    rw [hBshape]
    simp [JSBuf.int16BE, JSBuf.int32BE]
    omega
  have hglen : 1 ≤ (groupsBytes m.attributes).length := by
    unfold groupsBytes
    simp
    omega
  have hr0 : JSBuf.readInt8 B 0 = ((maj : Nat) : Int) := by
    rw [hBshape]
    unfold JSBuf.readInt8 JSBuf.byteAt
    simp only [List.drop_zero, List.headD_cons]
    rw [if_neg (by omega)]
  have hr1 : JSBuf.readInt8 B 1 = ((minr : Nat) : Int) := by
    rw [hBshape]
    unfold JSBuf.readInt8 JSBuf.byteAt
    simp only [List.drop_succ_cons, List.drop_zero, List.headD_cons]
    rw [if_neg (by omega)]
  have hd2 : B.drop 2 = JSBuf.int16BE c
      ++ (JSBuf.int32BE i ++ (groupsBytes m.attributes ++ d)) := by
    rw [hBshape]
    rfl
  have hrc : JSBuf.readInt16BE B 2 = c := by
    rw [JSBuf.readInt16BE_of_drop0 hd2,
      JSBuf.readInt16BE_int16BE _ _ w.hc1 (by have := w.hc2; omega)]
  have hd4 : B.drop 4 = JSBuf.int32BE i ++ (groupsBytes m.attributes ++ d) := by
    have h := JSBuf.drop_advance hd2 rfl
    rwa [JSBuf.length_int16BE] at h
  have hri : JSBuf.readInt32BE B 4 = i := by
    rw [JSBuf.readInt32BE_of_drop0 hd4,
      JSBuf.readInt32BE_int32BE _ _ w.hi1 (by have := w.hi2; omega)]
  have hd8 : B.drop 8 = groupsBytes m.attributes ++ d := by
    have h := JSBuf.drop_advance hd4 rfl
    rwa [JSBuf.length_int32BE, show 4 + 4 = 8 from rfl] at h
  have hsecs : B.drop 8 = secsBytes [(1, "operation", m.attributes.operation),
      (4, "printer", m.attributes.printer), (2, "job", m.attributes.job),
      (5, "unsupported", m.attributes.unsupported)] ++ 3 :: d := by
    rw [hd8]
    unfold groupsBytes secsBytes
    simp [sectionBytes]
  have hG := parseGroups_encoded [(1, "operation", m.attributes.operation),
      (4, "printer", m.attributes.printer), (2, "job", m.attributes.job),
      (5, "unsupported", m.attributes.unsupported)] B 8 Attributes.empty d (B.length + 1)
    hsecs
    (by
      intro s hs
      simp only [List.mem_cons, List.not_mem_nil, or_false] at hs
      rcases hs with rfl | rfl | rfl | rfl
      · exact ⟨by dsimp only; decide, by dsimp only; decide, w.hop.2, w.hop.1, rfl⟩
      · exact ⟨by dsimp only; decide, by dsimp only; decide, w.hpr.2, w.hpr.1, rfl⟩
      · exact ⟨by dsimp only; decide, by dsimp only; decide, w.hjob.2, w.hjob.1, rfl⟩
      · exact ⟨by dsimp only; decide, by dsimp only; decide, w.huns.2, w.huns.1, rfl⟩)
    (by dsimp only [List.map]; decide)
    (by simp; omega)
  have happly : applySecs Attributes.empty [(1, "operation", m.attributes.operation),
      (4, "printer", m.attributes.printer), (2, "job", m.attributes.job),
      (5, "unsupported", m.attributes.unsupported)]
      = ⟨decodedPool m.attributes.operation, decodedPool m.attributes.printer,
         decodedPool m.attributes.job, decodedPool m.attributes.unsupported⟩ := by
    rfl
  have hattrs : applySecs Attributes.empty [(1, "operation", m.attributes.operation),
      (4, "printer", m.attributes.printer), (2, "job", m.attributes.job),
      (5, "unsupported", m.attributes.unsupported)] = m.attributes := by
    rw [happly, decodedPool_eq_of_WF w.hop.2, decodedPool_eq_of_WF w.hpr.2,
      decodedPool_eq_of_WF w.hjob.2, decodedPool_eq_of_WF w.huns.2]
  unfold IPPParse.parseMessage
  simp only [IPPParse.mkIPPMessage]
  rw [if_pos (by omega)]
  simp only [IPPParse.parseInto]
  rw [if_neg (by omega)]
  rw [hr0, hr1, hrc, hri, hG]
  dsimp only
  rw [hattrs]
  have hver2 : ((maj : Nat) : Int).repr ++ "." ++ ((minr : Nat) : Int).repr = m.version := by
    rw [w.hver]
    rfl
  rw [hver2]
  rw [← w.hcode, ← w.hid, ← w.hdata]

/-! ## Concrete messages and byte sequences used by the claim theorems -/

/-- Scenario S1 of the spec: Get-Printer-Attributes request with one
operation attribute `attributes-charset = "utf-8"`. -/
def s1 : Bytes :=
  [0x01, 0x01, 0x00, 0x0B, 0x00, 0x00, 0x00, 0x01,
   0x01,
   0x47, 0x00, 0x12] ++ (JSBuf.asciiEncode "attributes-charset") ++ [0x00, 0x05]
    ++ (JSBuf.asciiEncode "utf-8") ++ [0x03]

/-- The message S1 decodes to. -/
def msgS1 : IPPMessage :=
  ⟨"1.1", some 11, some 1,
   ⟨[("attributes-charset", PoolVal.arr [Value.typeNative 0x47 (JSNative.str "utf-8")])],
    [], [], []⟩, some []⟩

/-- A minimal well-formed message: one operation attribute `a = 5`. -/
def mW : IPPMessage :=
  ⟨"1.1", some 11, some 1,
   ⟨[("a", PoolVal.arr [Value.typeNative 0x21 (JSNative.int 5)])], [], [], []⟩, some []⟩

/-- The bytes `mW` encodes to. -/
def bW : Bytes := [1, 1, 0, 11, 0, 0, 0, 1, 1, 0x21, 0, 1, 0x61, 0, 4, 0, 0, 0, 5, 3]

/-- A valid message with its groups in the spec's canonical order: the job
group (tag 2, attribute `a = "x"`) before the printer group (tag 4,
attribute `b = "y"`). -/
def b1 : Bytes :=
  [0x01, 0x01, 0x00, 0x0B, 0x00, 0x00, 0x00, 0x01,
   0x02, 0x44, 0x00, 0x01, 0x61, 0x00, 0x01, 0x78,
   0x04, 0x44, 0x00, 0x01, 0x62, 0x00, 0x01, 0x79,
   0x03]

/-- What decoding and re-encoding `b1` produces: the printer group now
precedes the job group. -/
def b1reenc : Bytes :=
  [0x01, 0x01, 0x00, 0x0B, 0x00, 0x00, 0x00, 0x01,
   0x04, 0x44, 0x00, 0x01, 0x62, 0x00, 0x01, 0x79,
   0x02, 0x44, 0x00, 0x01, 0x61, 0x00, 0x01, 0x78,
   0x03]

/-- A well-formed message carrying a `rangeOfInteger` value. -/
def m2 : IPPMessage :=
  ⟨"1.1", some 11, some 1,
   ⟨[("a", PoolVal.arr [Value.typeRange 1 2])], [], [], []⟩, some []⟩

/-- A message whose job and printer groups are both non-empty. -/
def m4 : IPPMessage :=
  ⟨"1.1", some 11, some 1,
   ⟨[], [("b", PoolVal.arr [Value.typeNative 0x44 (JSNative.str "y")])],
       [("a", PoolVal.arr [Value.typeNative 0x44 (JSNative.str "x")])], []⟩, some []⟩

/-- The bytes `m4` encodes to: the printer section (tag 4, at index 8)
precedes the job section (tag 2, at index 16). -/
def b4 : Bytes :=
  [1, 1, 0, 11, 0, 0, 0, 1,
   4, 0x44, 0, 1, 0x62, 0, 1, 0x79,
   2, 0x44, 0, 1, 0x61, 0, 1, 0x78,
   3]

/-- The record bytes of attribute `a` holding two `rangeOfInteger` values:
one full-name record and one continuation record, each with a declared
value length of 9 over an 8-octet payload. -/
def c5bytes : Bytes :=
  [0x33, 0, 1, 0x61, 0, 9, 0, 0, 0, 1, 0, 0, 0, 2,
   0x33, 0, 0, 0, 9, 0, 0, 0, 3, 0, 0, 0, 4]

/-- An input whose only attribute record declares the negative value length
`0xFFF8 = -8`. -/
def b8 : Bytes :=
  [0x01, 0x01, 0x00, 0x00, 0x00, 0x00, 0x00, 0x01,
   0x01,
   0x30, 0x00, 0x06,
   0x44, 0x00, 0x01, 0x62, 0x00, 0x04,
   0xFF, 0xF8,
   0x20, 0x20,
   0x03]

/-- The message the decoder actually produces from `b8`: the negative
value length moves the read position backwards, so the name and trailing
bytes are re-parsed as further records. -/
def msg8 : IPPMessage :=
  ⟨"1.1", some 0, some 1,
   ⟨[("D\x00\x01b\x00\x04", PoolVal.arr [Value.typeNative 0x30 (JSNative.buf [])]),
     ("b", PoolVal.arr [Value.typeNative 0x44 (JSNative.str "\x7Fx  ")])],
    [], [], []⟩, some []⟩

/-- A valid message whose single attribute carries a 768-octet value: the
value-length field `0x03 0x00` puts the byte `0x03` at index 13. -/
def b3 : Bytes :=
  [0x01, 0x01, 0x00, 0x0B, 0x00, 0x00, 0x00, 0x01,
   0x01, 0x30, 0x00, 0x01, 0x61, 0x03, 0x00] ++ List.replicate 768 0x61 ++ [0x03]

/-! ## Counterexample and bug-exhibiting theorems -/

/-- C1 counterexample: `b1` is a valid byte sequence whose groups appear in
the spec's canonical order (job before printer) and whose attributes are in
wire order, yet re-encoding its decode swaps the two groups, so
`encode(decode(b1)) = b1reenc ≠ b1`. -/
theorem C1_counterexample :
    (IPPParse.parseMessage b1).bind IPPEncode.encodeMessage = .ok b1reenc
    ∧ b1reenc ≠ b1 := by
  exact ⟨rfl, by decide⟩

/-- C2 counterexample: `m2` is well-formed and carries a supported value
kind (`rangeOfInteger`), yet `decode(encode(m2))` fails: the encoder
declares a value length of 9 for the 8-octet range payload and the decoder
rejects any length other than 8. -/
theorem C2_counterexample :
    (IPPEncode.encodeMessage m2).bind IPPParse.parseMessage
      = .error "on converting value of attribute a: invalid size" := by
  exact rfl

set_option maxRecDepth 10000 in
/-- C3 counterexample: `b3` parses fine in one shot, but writing it as the
two chunks `take 14 / drop 14` makes the loose header scan mistake the
value-length byte `0x03` at index 13 for the end-of-groups marker: the
parser errors out and emits no message at all. -/
theorem C3_counterexample :
    (IPPParse.parseMessage b3).isOk = true
    ∧ IPPStream.getEndOfHeaderIndex (some (b3.take 14)) = 14
    ∧ (IPPStream.runStream [b3.take 14, b3.drop 14]).emitted = []
    ∧ (IPPStream.runStream [b3.take 14, b3.drop 14]).error = true := by
  exact ⟨rfl, rfl, rfl, rfl⟩

/-- C4 counterexample: encoding `m4`, whose job and printer buckets are
both non-empty, emits the printer group (tag 4) at index 8 before the job
group (tag 2) at index 16 — not the claimed operation, job, printer,
unsupported order. -/
theorem C4_counterexample :
    IPPEncode.encodeMessage m4 = .ok b4
    ∧ JSBuf.byteAt b4 8 = 4 ∧ JSBuf.byteAt b4 16 = 2 := by
  exact ⟨rfl, rfl, rfl⟩

/-- C5 counterexample: an attribute with two `rangeOfInteger` values
encodes to the claimed one-named-record-plus-continuation shape `c5bytes`,
but decoding those records does not reassemble the attribute — it fails,
because each record's declared length 9 disagrees with the decoder's
required 8. -/
theorem C5_counterexample :
    IPPEncode.compileValueList "a" [Value.typeRange 1 2, Value.typeRange 3 4] = .ok c5bytes
    ∧ IPPParse.parseAttributesLoop (c5bytes ++ [3]) 0 100 [] none
      = .error "on converting value of attribute a: invalid size" := by
  exact ⟨rfl, rfl⟩

/-- C6: the `rangeOfInteger` encoder writes a length prefix of 9 (not the
specified 8) in front of the 8 payload octets, for every in-range pair. -/
theorem C6_range_length_prefix_is_nine {l u : Int}
    (hl1 : -2147483648 ≤ l) (hl2 : l ≤ 2147483647)
    (hu1 : -2147483648 ≤ u) (hu2 : u ≤ 2147483647) :
    (Value.typeRange l u).toBuffer = .ok ([0, 9] ++ JSBuf.int32BE l ++ JSBuf.int32BE u)
    ∧ (JSBuf.int32BE l ++ JSBuf.int32BE u).length = 8 := by
  constructor
  · simp only [Value.toBuffer, JSBuf.wInt32BE]
    rw [if_pos ⟨hl1, hl2⟩, if_pos ⟨hu1, hu2⟩]
    rfl
  · simp [JSBuf.length_int32BE]

/-- C6 witness: the range 1..2. -/
theorem C6_range_length_prefix_is_nine_witness :
    (Value.typeRange 1 2).toBuffer = .ok ([0, 9] ++ JSBuf.int32BE 1 ++ JSBuf.int32BE 2)
    ∧ (JSBuf.int32BE 1 ++ JSBuf.int32BE 2).length = 8 :=
  C6_range_length_prefix_is_nine (by decide) (by decide) (by decide) (by decide)

/-- C7: encoding any `stringWithLanguage` value never produces the four
specified fields: the source reads `this.value`, a field the constructor
never sets, so every call throws. -/
theorem C7_string_with_language_throws (t : Int) (s l : String) :
    (Value.typeStringWithLanguage t s l).toBuffer
      = .error "TypeError: this.value is undefined (the field is never set)" := by
  exact rfl

/-- C8: the input `b8` declares the negative value length `-8`, yet the
decoder accepts it (only the name length is checked), rewinds its position
and produces the mangled message `msg8` instead of failing. -/
theorem C8_negative_value_length_accepted :
    JSBuf.readInt16BE b8 18 = -8 ∧ IPPParse.parseMessage b8 = .ok msg8 := by
  exact ⟨rfl, rfl⟩

/-- C9 counterexample: the generator's guard is exclusive at
`MaxInteger = 2^31 - 1`, so the claimed largest member of the range is
rejected (and, with no value set supplied, reported as a missing set). -/
theorem C9_counterexample :
    IPPGenerate.generateEnum (.num 2147483647) none = .error "invalid set of enum values"
    ∧ MaxInteger = 2147483647 := by
  exact ⟨rfl, rfl⟩

/-- C10: parsing an empty byte sequence succeeds with the fresh default
message: version "1.1", no code, no id, empty groups, no data. -/
theorem C10_parse_empty_default :
    IPPParse.parseMessage [] = .ok ⟨"1.1", none, none, Attributes.empty, none⟩ := by
  exact rfl

/-! ## The round-trip and ordering claims -/

/-- C2 (amended): for every well-formed message — canonical version string
with components in `writeInt8` range, 16-bit code, non-zero 32-bit id,
present data, and attributes drawn from the exactly-invertible value kinds
(`SafeValue`, which excludes `rangeOfInteger`, dates, raw buffers and
`stringWithLanguage`) — decoding the encoding returns the message itself:
`decode(encode(M)) = M`. -/
theorem C2_model_roundtrip {m : IPPMessage} {maj minr : Nat} {c i : Int} {d : Bytes}
    (w : WFMessage m maj minr c i d) :
    (IPPEncode.encodeMessage m).bind IPPParse.parseMessage = .ok m := by
  have hB := encodeMessage_safe w
  rw [hB]
  exact parse_of_encoded w hB

/-- C2 witness: the round trip on the concrete message `mW`. -/
theorem C2_model_roundtrip_witness :
    (IPPEncode.encodeMessage mW).bind IPPParse.parseMessage = .ok mW :=
  @C2_model_roundtrip mW 1 1 11 1 [] (by constructor <;> decide)

/-- C1 (amended): the wire round trip holds for the byte sequences the
encoder itself emits — groups in the encoder's order (operation, printer,
job, unsupported) and attributes in wire order: if a well-formed message
encodes to `B`, then `encode(decode(B)) = B`. -/
theorem C1_wire_roundtrip {m : IPPMessage} {maj minr : Nat} {c i : Int} {d : Bytes}
    (w : WFMessage m maj minr c i d) {B : Bytes}
    (hB : IPPEncode.encodeMessage m = .ok B) :
    (IPPParse.parseMessage B).bind IPPEncode.encodeMessage = .ok B := by
  rw [parse_of_encoded w hB]
  exact hB

/-- C1 witness: the wire round trip on `bW`, the encoding of `mW`. -/
theorem C1_wire_roundtrip_witness :
    (IPPParse.parseMessage bW).bind IPPEncode.encodeMessage = .ok bW :=
  @C1_wire_roundtrip mW 1 1 11 1 [] (by constructor <;> decide) bW (by exact rfl)

/-- C4 (amended): on every message whose four pools are well-formed the
encoder emits its non-empty groups in the order operation (1), printer (4),
job (2), unsupported (5) — not operation, job, printer, unsupported — and
the end marker 3 last; the order is fixed by the sort, independent of
insertion order. -/
theorem C4_encoder_group_order {attrs : Attributes}
    (h1 : WFPool attrs.operation) (h4 : WFPool attrs.printer)
    (h2 : WFPool attrs.job) (h5 : WFPool attrs.unsupported) :
    IPPEncode.compileAttributeGroups attrs
      = .ok (sectionBytes 1 attrs.operation ++ sectionBytes 4 attrs.printer
          ++ sectionBytes 2 attrs.job ++ sectionBytes 5 attrs.unsupported ++ [3]) :=
  compileAttributeGroups_safe h1.2 h4.2 h2.2 h5.2

/-- C4 witness: the attribute groups of `m4`, with job and printer both
non-empty, compile with the printer section first. -/
theorem C4_encoder_group_order_witness :
    IPPEncode.compileAttributeGroups m4.attributes
      = .ok (sectionBytes 1 m4.attributes.operation ++ sectionBytes 4 m4.attributes.printer
          ++ sectionBytes 2 m4.attributes.job ++ sectionBytes 5 m4.attributes.unsupported
          ++ [3]) :=
  C4_encoder_group_order (by decide) (by decide) (by decide) (by decide)

/-- C5 (amended): for an attribute with `k = 1 + |vs|` values of the
exactly-invertible kinds, encoding produces one record carrying the full
name followed by continuation records with name-length 0, and decoding
those records reassembles the single attribute with its `k` values in
order. -/
theorem C5_multivalue {name : String} {v : Value} {vs : List Value}
    (hn : SafeName name) (hsafe : ∀ x ∈ v :: vs, SafeValue x)
    (rest : Bytes) (b : Nat) (hb : b < 0x10) (fuelB : Nat) (hf : vs.length + 1 < fuelB) :
    IPPEncode.compileValueList name (v :: vs)
      = .ok (valueRec name v ++ contBytes vs)
    ∧ IPPParse.parseAttributesLoop (valueRec name v ++ contBytes vs ++ b :: rest) 0 fuelB [] none
      = .ok ((valueRec name v ++ contBytes vs).length, [(name, PoolVal.arr (v :: vs))]) := by
  have hattr : attrBytes name (v :: vs) = valueRec name v ++ contBytes vs := rfl
  have henc := compileValueList_safe hsafe hn.1 hn.2.2
  rw [hattr] at henc
  refine ⟨henc, ?_⟩
  have hpool : poolBytes [(name, PoolVal.arr (v :: vs))] = valueRec name v ++ contBytes vs := by
    simp [poolBytes, IPPEncode.normalizeValues, hattr]
  have hd : (valueRec name v ++ contBytes vs ++ b :: rest).drop 0
      = poolBytes [(name, PoolVal.arr (v :: vs))] ++ b :: rest := by
    rw [List.drop_zero, hpool]
  have hres := parseAttrs_encoded [(name, PoolVal.arr (v :: vs))]
      (valueRec name v ++ contBytes vs ++ b :: rest) 0 [] none b rest fuelB hd hb
      (by
        intro e he
        simp only [List.mem_singleton] at he
        subst he
        exact ⟨hn, by simp, hsafe⟩)
      (by simp)
      (by intro e he; rfl)
      (by simpa [recCount, IPPEncode.normalizeValues] using hf)
  rw [hres, hpool]
  simp [decodedPool, IPPEncode.normalizeValues]

/-- C5 witness: the attribute `a` with two boolean values. -/
theorem C5_multivalue_witness :
    IPPEncode.compileValueList "a"
        [Value.typeNative 0x22 (JSNative.bool true), Value.typeNative 0x22 (JSNative.bool false)]
      = .ok (valueRec "a" (Value.typeNative 0x22 (JSNative.bool true))
          ++ contBytes [Value.typeNative 0x22 (JSNative.bool false)])
    ∧ IPPParse.parseAttributesLoop
        (valueRec "a" (Value.typeNative 0x22 (JSNative.bool true))
          ++ contBytes [Value.typeNative 0x22 (JSNative.bool false)] ++ 3 :: []) 0 3 [] none
      = .ok ((valueRec "a" (Value.typeNative 0x22 (JSNative.bool true))
          ++ contBytes [Value.typeNative 0x22 (JSNative.bool false)]).length,
          [("a", PoolVal.arr [Value.typeNative 0x22 (JSNative.bool true),
            Value.typeNative 0x22 (JSNative.bool false)])]) :=
  @C5_multivalue "a" (Value.typeNative 0x22 (JSNative.bool true))
    [Value.typeNative 0x22 (JSNative.bool false)]
    (by decide) (by decide) [] 3 (by decide) 3 (by decide)

/-- C9 (amended): the enum generator accepts exactly the integers in the
inclusive range `[2, 2^31 - 2]` (the guard is strict at `MaxInteger`),
returning an enum value carrying the integer; a non-numeric label with an
ordered set returns the label's index in the set, and a label not in the
set fails with the invalid-enum-value error. -/
theorem C9_enum_generate :
    (∀ (n : Int) (sv : Option (List IPPGenerate.EnumArg)), 2 ≤ n → n ≤ 2147483646 →
      IPPGenerate.generateEnum (.num n) sv = .ok (.typeNative 0x23 (.int n)))
    ∧ (∀ (s : String) (set2 : List IPPGenerate.EnumArg) (i : Nat),
        IPPGenerate.toNumber (.label s) = none →
        set2.findIdx? (fun x => x = .label s) = some i →
        IPPGenerate.generateEnum (.label s) (some set2) = .ok (.typeNative 0x23 (.int i)))
    ∧ (∀ (s : String) (set2 : List IPPGenerate.EnumArg),
        IPPGenerate.toNumber (.label s) = none →
        set2.findIdx? (fun x => x = .label s) = none →
        IPPGenerate.generateEnum (.label s) (some set2) = .error "invalid enum value") := by
  refine ⟨?_, ?_, ?_⟩
  · intro n sv h2 hm
    simp only [IPPGenerate.generateEnum, IPPGenerate.toNumber, IPPGenerate.enumParseInt]
    rw [if_pos ⟨by omega, by simp only [MaxInteger]; omega⟩]
  · intro s set2 i htn hfind
    simp only [IPPGenerate.generateEnum]
    rw [htn]
    simp only [hfind]
  · intro s set2 htn hfind
    simp only [IPPGenerate.generateEnum]
    rw [htn]
    simp only [hfind]

/-- C9 witness: 2147483646 is accepted as-is, the label "b" indexes to 1
in the set [a, b], and the label "z" is rejected. -/
theorem C9_enum_generate_witness :
    IPPGenerate.generateEnum (.num 2147483646) none
      = .ok (.typeNative 0x23 (.int 2147483646))
    ∧ IPPGenerate.generateEnum (.label "b") (some [.label "a", .label "b"])
      = .ok (.typeNative 0x23 (.int 1))
    ∧ IPPGenerate.generateEnum (.label "z") (some [.label "a", .label "b"])
      = .error "invalid enum value" :=
  ⟨C9_enum_generate.1 2147483646 none (by decide) (by decide),
   C9_enum_generate.2.1 "b" [.label "a", .label "b"] 1 (by decide) (by decide),
   C9_enum_generate.2.2 "z" [.label "a", .label "b"] (by decide) (by decide)⟩


/-- Writing one chunk while still collecting, when the grown collector
still shows no complete header: the chunk is only appended to the
collector. -/
theorem writeChunk_no_header (collOpt : Option Bytes) (acc ck : Bytes) (pushed : List Bytes)
    (emitted : List IPPMessage)
    (hacc : acc = (match collOpt with | none => ck | some c => c ++ ck))
    (hscan : IPPStream.getEndOfHeaderIndex (some acc) = -1) :
    IPPStream.writeChunk ⟨collOpt, none, false, pushed, emitted⟩ ck
      = ⟨some acc, none, false, pushed, emitted⟩ := by
  cases collOpt with
  | none =>
    simp only at hacc
    subst hacc
    simp only [IPPStream.writeChunk]
    rw [if_neg (by simp)]
    rw [hscan, if_neg (by decide)]
  | some c =>
    simp only at hacc
    subst hacc
    simp only [IPPStream.writeChunk]
    rw [if_neg (by simp)]
    rw [hscan, if_neg (by decide)]

/-- Writing the chunk that completes the header: the message is parsed from
the collector's prefix, emitted once, and the remainder is pushed
downstream when non-empty. -/
theorem writeChunk_found (collOpt : Option Bytes) (acc ck : Bytes) (pushed : List Bytes)
    (emitted : List IPPMessage) (hdrEnd : Nat) (msg : IPPMessage)
    (hacc : acc = (match collOpt with | none => ck | some c => c ++ ck))
    (hscan : IPPStream.getEndOfHeaderIndex (some acc) = (hdrEnd : Int))
    (hparse : IPPParse.parseMessage (acc.take hdrEnd) = .ok msg) :
    IPPStream.writeChunk ⟨collOpt, none, false, pushed, emitted⟩ ck
      = ⟨none, some msg, false,
         pushed ++ (if (JSBuf.jsSliceFrom acc hdrEnd).length > 0
           then [JSBuf.jsSliceFrom acc hdrEnd] else []),
         emitted ++ [msg]⟩ := by
  have hparse2 : IPPParse.mkIPPMessage (some (acc.take hdrEnd)) = .ok msg := hparse
  cases collOpt with
  | none =>
    simp only at hacc
    subst hacc
    simp only [IPPStream.writeChunk]
    rw [if_neg (by simp)]
    rw [hscan, if_pos (by omega)]
    rw [show ((hdrEnd : Int)).toNat = hdrEnd from Int.toNat_natCast hdrEnd]
    rw [hparse2]
    dsimp only
    by_cases hr : (JSBuf.jsSliceFrom acc hdrEnd).length > 0
    · rw [if_pos hr, if_pos hr]
    · rw [if_neg hr, if_neg hr]
      simp
  | some c =>
    simp only at hacc
    subst hacc
    simp only [IPPStream.writeChunk]
    rw [if_neg (by simp)]
    rw [hscan, if_pos (by omega)]
    rw [show ((hdrEnd : Int)).toNat = hdrEnd from Int.toNat_natCast hdrEnd]
    rw [hparse2]
    dsimp only
    by_cases hr : (JSBuf.jsSliceFrom (c ++ ck) hdrEnd).length > 0
    · rw [if_pos hr, if_pos hr]
    · rw [if_neg hr, if_neg hr]
      simp

/-- Once the header message is found, every further chunk is passed through
unchanged: the non-empty ones are appended to the pushed body bytes. -/
theorem drain_after_message (coll : Option Bytes) (m : IPPMessage)
    (emitted : List IPPMessage) :
    ∀ (cs : List Bytes) (pushed : List Bytes),
    List.foldl IPPStream.writeChunk ⟨coll, some m, false, pushed, emitted⟩ cs
      = ⟨coll, some m, false, pushed ++ cs.filter (fun c => decide (c.length > 0)), emitted⟩ := by
  intro cs
  induction cs with
  | nil => intro pushed; simp
  | cons c rest ih =>
    intro pushed
    simp only [List.foldl]
    have hw : IPPStream.writeChunk ⟨coll, some m, false, pushed, emitted⟩ c
        = ⟨coll, some m, false, pushed ++ (if c.length > 0 then [c] else []), emitted⟩ := by
      simp only [IPPStream.writeChunk]
      rw [if_neg (by simp)]
      by_cases hc : c.length > 0
      · rw [if_pos hc, if_pos hc]
      · rw [if_neg hc, if_neg hc]
        simp
    rw [hw, ih]
    by_cases hc : c.length > 0
    · simp [List.filter_cons, hc]
    · simp [List.filter_cons, hc]

/-- The collecting phase: as long as each successively grown collector
scans to no complete header, chunks only accumulate and nothing else in
the state changes. -/
theorem collect_phase :
    ∀ (rest : List Bytes) (acc : Bytes) (pushed : List Bytes) (emitted : List IPPMessage),
    (∀ j, j < rest.length →
      IPPStream.getEndOfHeaderIndex (some (acc ++ (rest.take (j + 1)).flatten)) = -1) →
    List.foldl IPPStream.writeChunk ⟨some acc, none, false, pushed, emitted⟩ rest
      = ⟨some (acc ++ rest.flatten), none, false, pushed, emitted⟩ := by
  intro rest
  induction rest with
  | nil =>
    intro acc pushed emitted h
    simp
  | cons c rest2 ih =>
    intro acc pushed emitted h
    simp only [List.foldl]
    have h0 := h 0 (by simp)
    rw [writeChunk_no_header (some acc) (acc ++ c) c pushed emitted rfl (by simpa using h0)]
    rw [ih (acc ++ c) pushed emitted (fun j hj => by
      have hjs := h (j + 1) (by simpa using Nat.succ_lt_succ hj)
      simpa [List.take_succ_cons, List.append_assoc] using hjs)]
    simp

/-- C3 (amended): the streaming equivalence holds for exactly the
partitions on which the loose header scan agrees with the real end of the
attribute groups: if no intermediate collected prefix scans to a header
end, and the collector completed by chunk `ck` scans to `hdrEnd` with the
prefix up to `hdrEnd` decoding to `msg`, then the parser emits exactly
`msg` once, never latches an error, and delivers downstream exactly the
bytes after `hdrEnd` followed by the remaining chunks, in order. -/
theorem C3_streaming_scan_agreeing (cs pre : List Bytes) (ck : Bytes) (post : List Bytes)
    (hdrEnd : Nat) (msg : IPPMessage)
    (hcs : cs = pre ++ ck :: post)
    (hpre : ∀ j, j < pre.length →
      IPPStream.getEndOfHeaderIndex (some ((pre.take (j + 1)).flatten)) = -1)
    (hscan : IPPStream.getEndOfHeaderIndex (some (pre.flatten ++ ck)) = (hdrEnd : Int))
    (hparse : IPPParse.parseMessage ((pre.flatten ++ ck).take hdrEnd) = .ok msg) :
    IPPStream.runStream cs
      = ⟨none, some msg, false,
         (if (JSBuf.jsSliceFrom (pre.flatten ++ ck) hdrEnd).length > 0
            then [JSBuf.jsSliceFrom (pre.flatten ++ ck) hdrEnd] else [])
           ++ post.filter (fun c => decide (c.length > 0)),
         [msg]⟩ := by
  subst hcs
  unfold IPPStream.runStream IPPStream.PState.init
  cases pre with
  | nil =>
    simp only [List.nil_append, List.foldl]
    rw [writeChunk_found none ((([] : List Bytes).flatten) ++ ck) ck [] [] hdrEnd msg
      (by simp) hscan hparse]
    rw [drain_after_message]
    simp
  | cons p pre2 =>
    rw [List.cons_append, List.foldl_cons, List.foldl_append]
    rw [writeChunk_no_header none p p [] [] rfl (by
      have h0 := hpre 0 (by simp)
      simpa using h0)]
    rw [collect_phase pre2 p [] [] (fun j hj => by
      have hjs := hpre (j + 1) (by simpa using Nat.succ_lt_succ hj)
      simpa [List.take_succ_cons, List.append_assoc] using hjs)]
    rw [List.foldl_cons]
    rw [writeChunk_found (some (p ++ pre2.flatten)) (((p :: pre2).flatten) ++ ck) ck [] []
      hdrEnd msg (by simp) hscan hparse]
    rw [drain_after_message]
    simp

/-- C3 witness: scenario S5 — S1 fed one byte at a time. The first 37
one-byte chunks are the scan-silent prefixes, the final chunk carries the
end marker 0x03: exactly one message event fires, equal to S1's one-shot
decode, with zero body bytes. -/
theorem C3_streaming_scan_agreeing_witness :
    IPPStream.runStream (s1.map (fun x => [x]))
      = ⟨none, some msgS1, false, [], [msgS1]⟩ :=
  (C3_streaming_scan_agreeing (s1.map (fun x => [x])) ((s1.take 37).map (fun x => [x]))
    [3] [] 38 msgS1 rfl (by decide) (by exact rfl) (by exact rfl)).trans (by decide)
